import Mathlib

/-!
Verification development for the knowledge-base retrieval core of the
inna_curator repository (src/main.py).  Strings are modelled as lists of
characters.  The float lexical scores are sums of the constants 1.0, 1.5,
1.2, 2.6, 3.0, all exact multiples of one tenth, and are modelled exactly
as naturals scaled by ten (an order isomorphism on every value the code
compares).  The cosine similarities of the semantic path are exact
rationals with the float square root as an explicit parameter, and the
external embedding call is a parameter returning an optional vector: no
verified claim depends on their numeric values.  The stable sort used by Python list.sort is embedded as a
structural insertion sort over entries tagged with their original position:
a stable sort by a key is extensionally the unique sort by the total order
(key, original position), which is what the insertion sort below computes.
-/

namespace KB

abbrev Str := List Char

/-- Whitespace characters recognised by Python str.strip and by the regex
class backslash-s on the inputs this program handles. -/
def isSpace (c : Char) : Bool :=
  c == ' ' || c == '\t' || c == '\n' || c == '\r' || c == Char.ofNat 11 || c == Char.ofNat 12

/-- Python str.lower restricted to the Latin and Cyrillic letters this
program manipulates. -/
def lowerChar (c : Char) : Char :=
  if 'A' ≤ c ∧ c ≤ 'Z' then Char.ofNat (c.toNat + 32)
  else if 'А' ≤ c ∧ c ≤ 'Я' then Char.ofNat (c.toNat + 32)
  else if c = 'Ё' then 'ё'
  else c

def lowerStr (s : Str) : Str := s.map lowerChar

/-- Python str.lstrip (whitespace). -/
def pyLstrip (s : Str) : Str := s.dropWhile isSpace

/-- Drop trailing characters satisfying p (recursive form of Python rstrip). -/
def rstripIf (p : Char → Bool) : Str → Str
  | [] => []
  | c :: t =>
    let r := rstripIf p t
    if r.isEmpty && p c then [] else c :: r

/-- Python str.rstrip (whitespace). -/
def pyRstrip (s : Str) : Str := rstripIf isSpace s

/-- Python str.strip (whitespace). -/
def pyStrip (s : Str) : Str := pyRstrip (pyLstrip s)

/-- Python str.strip with an explicit character set. -/
def pyStripChars (bad : List Char) (s : Str) : Str :=
  rstripIf (fun c => bad.contains c) (s.dropWhile (fun c => bad.contains c))

/-- Python str.rstrip with an explicit character set. -/
def pyRstripChars (bad : List Char) (s : Str) : Str :=
  rstripIf (fun c => bad.contains c) s

/-- The quote characters removed by the normalize regex. -/
def isQuoteChar (c : Char) : Bool :=
  c == '"' || c == Char.ofNat 39 || c == '“' || c == '”' || c == '«' || c == '»'

/-- Collapse every maximal run of whitespace to a single space
(the re.sub of backslash-s-plus with a single space). -/
def collapseWs : Str → Str
  | [] => []
  | [c] => if isSpace c then [' '] else [c]
  | c :: d :: rest =>
    if isSpace c && isSpace d then collapseWs (d :: rest)
    else (if isSpace c then ' ' else c) :: collapseWs (d :: rest)

/-- The normalize function of main.py: lower, strip, fold ё to е, drop
quote characters, collapse whitespace runs. -/
def normalize (s : Str) : Str :=
  collapseWs ((List.filter (fun c => !(isQuoteChar c))
    ((pyStrip (lowerStr s)).map (fun c => if c = 'ё' then 'е' else c))))

/-- Substring containment, the Python expression needle in hay. -/
def isSubstr (n : Str) : Str → Bool
  | [] => n.isEmpty
  | c :: t => n.isPrefixOf (c :: t) || isSubstr n t

/-- Characters matched by the term-extraction regex class [a-zа-я0-9]. -/
def isTermChar (c : Char) : Bool :=
  decide (('a' ≤ c ∧ c ≤ 'z') ∨ ('а' ≤ c ∧ c ≤ 'я') ∨ ('0' ≤ c ∧ c ≤ '9'))

/-- Helper for tokenize: cur is the reversed current run of term characters. -/
def tokenizeGo (cur : Str) : Str → List Str
  | [] => if cur.isEmpty then [] else [cur.reverse]
  | c :: rest =>
    if isTermChar c then tokenizeGo (c :: cur) rest
    else if cur.isEmpty then tokenizeGo [] rest
    else cur.reverse :: tokenizeGo [] rest

/-- re.findall of maximal [a-zа-я0-9] runs. -/
def tokenize (s : Str) : List Str := tokenizeGo [] s

/-- Insertion-order deduplication (Python dict.fromkeys). -/
def dedupGo (seen : List Str) : List Str → List Str
  | [] => []
  | x :: xs => if seen.contains x then dedupGo seen xs else x :: dedupGo (x :: seen) xs

/-- Code-point lexicographic strict order on strings (Python str comparison). -/
def strLtB : Str → Str → Bool
  | [], [] => false
  | [], _ :: _ => true
  | _ :: _, [] => false
  | a :: as, b :: bs => decide (a < b) || (a == b && strLtB as bs)

def strLeB (s t : Str) : Bool := strLtB s t || s == t

/-- Stable insertion of x into a sorted list: x goes before the first
element y with le x y.  Processing the original list left to right with
insSort yields exactly the stable sort Python list.sort computes. -/
def insertLe (le : α → α → Bool) (x : α) : List α → List α
  | [] => [x]
  | y :: ys => if le x y then x :: y :: ys else y :: insertLe le x ys

/-- Stable sort (embedding of Python list.sort / sorted with key). -/
def insSort (le : α → α → Bool) : List α → List α
  | [] => []
  | x :: xs => insertLe le x (insSort le xs)

/-- One indexed (lesson, section, material) retrievable unit built by
load_kb.  The two constant fields type and kind of the source dict are
never read anywhere and are omitted.  The field text is the precomputed
normalized_text. -/
structure MicroItem where
  course_title : Str
  course_url : Str
  step_title : Str
  step_url : Str
  module_title : Str
  module_url : Str
  lesson_title : Str
  lesson_url : Str
  section_title : Str
  material_title : Str
  homework : Str
  lesson_blob : Str
  text : Str
deriving DecidableEq

/-! ## Lexical scorer (kb_candidates_keyword) -/

/-- The static synonym expansion table of kb_candidates_keyword, in source
order. -/
def kwExpansions (q : Str) : List Str :=
  (if isSubstr (("ванн").toList) q then
    [("санузел").toList, ("санузлы").toList, ("туалет").toList, ("bathroom").toList, ("wc").toList]
   else []) ++
  (if isSubstr (("сануз").toList) q || isSubstr (("туалет").toList) q || isSubstr (("wc").toList) q then
    [("ванная").toList, ("ванна").toList, ("bathroom").toList]
   else []) ++
  (if isSubstr (("3d").toList) q || isSubstr (("3д").toList) q then
    [("3д").toList, ("3d").toList, ("коллаж").toList, ("3д коллаж").toList, ("3d collage").toList,
     ("мудборд").toList, ("moodboard").toList]
   else []) ++
  (if isSubstr (("коллаж").toList) q || isSubstr (("moodboard").toList) q then
    [("3д").toList, ("3d").toList, ("3д коллаж").toList, ("3d collage").toList]
   else []) ++
  (if isSubstr (("photoshop").toList) q || isSubstr (("фотошоп").toList) q then
    [("ps").toList, ("adobe photoshop").toList]
   else []) ++
  (if isSubstr (("мид").toList) q || isSubstr (("mid").toList) q then
    [("мид-сенчури").toList, ("mid-century").toList, ("mid century").toList, ("мидсенчури").toList]
   else []) ++
  (if isSubstr (("эко").toList) q || isSubstr (("eco").toList) q then
    [("эко-стиль").toList, ("eco style").toList, ("экостиль").toList]
   else [])

/-- Terms of length at least 3 extracted from the normalized query plus the
normalized expansions, deduplicated preserving insertion order. -/
def extractTerms (q : Str) : List Str :=
  dedupGo []
    (((tokenize q).filter (fun w => 3 ≤ w.length)) ++
      (kwExpansions q).flatMap (fun e => (tokenize (normalize e)).filter (fun w => 3 ≤ w.length)))

/-- Is the query bathroom related (the need_bath flag). -/
def needBath (q : Str) : Bool :=
  isSubstr (("ванн").toList) q || isSubstr (("сануз").toList) q ||
  isSubstr (("туалет").toList) q || isSubstr (("bath").toList) q || isSubstr (("wc").toList) q

def bathTerms : List Str :=
  [("сануз").toList, ("ванн").toList, ("туалет").toList, ("bath").toList, ("wc").toList]

/-- One term of the scoring loop body: four independent conditional adds.
The float weights 1.0, 1.5, 1.2, 2.6 of the source are all exact multiples
of one tenth, so scores are represented exactly as naturals scaled by ten
(10, 15, 12, 26, with 30 for the bonus): the scaling is an order
isomorphism, so every comparison the code performs is preserved. -/
def kwStep (txt mt lb hw : Str) (s : ℕ) (w : Str) : ℕ :=
  let s1 := if isSubstr w txt then s + 10 else s
  let s2 := if isSubstr w mt then s1 + 15 else s1
  let s3 := if isSubstr w lb then s2 + 12 else s2
  if isSubstr w hw then s3 + 26 else s3

/-- The total contribution of a single term, as a closed formula (scaled by
ten like kwStep). -/
def termWeight (txt mt lb hw : Str) (w : Str) : ℕ :=
  (if isSubstr w txt then 10 else 0) + (if isSubstr w mt then 15 else 0) +
  (if isSubstr w lb then 12 else 0) + (if isSubstr w hw then 26 else 0)

/-- The lexical score the code computes for one item (the inner loop of
kb_candidates_keyword), scaled by ten. -/
def kwScore (terms : List Str) (nb : Bool) (it : MicroItem) : ℕ :=
  if nb && bathTerms.any (fun bt => isSubstr bt it.text) then
    terms.foldl (kwStep it.text (normalize it.material_title) (normalize it.lesson_blob)
      (normalize it.homework)) 0 + 30
  else
    terms.foldl (kwStep it.text (normalize it.material_title) (normalize it.lesson_blob)
      (normalize it.homework)) 0

/-- The specification formula: sum of per-term weights plus the single
bathroom bonus (scaled by ten like kwStep). -/
def kwScoreSpec (terms : List Str) (nb : Bool) (it : MicroItem) : ℕ :=
  (terms.map (termWeight it.text (normalize it.material_title) (normalize it.lesson_blob)
    (normalize it.homework))).sum +
  (if nb && bathTerms.any (fun bt => isSubstr bt it.text) then 30 else 0)

/-- The deduplication key (lesson_url, section_title, material_title). -/
def itemKey (it : MicroItem) : Str × Str × Str := (it.lesson_url, it.section_title, it.material_title)

def entryKey (e : ℕ × ℕ × MicroItem) : Str × Str × Str := itemKey e.2.2

/-- Scored entries, tagged with the original document position.  Items with
an empty text field are skipped, items with score not above zero are
dropped, exactly as in the source loop (which derives the term list and
bath flag from the normalized query once before scoring). -/
def kbScoredEntries (idx : List MicroItem) (q : Str) : List (ℕ × ℕ × MicroItem) :=
  idx.enum.filterMap (fun p =>
    if p.2.text = [] then none
    else if 0 < kwScore (extractTerms (normalize q)) (needBath (normalize q)) p.2 then
      some (kwScore (extractTerms (normalize q)) (needBath (normalize q)) p.2, p.1, p.2)
    else none)

/-- Order of the Python stable sort, made total by the position tag:
higher score first, ties by original document position. -/
def entryLe (a b : ℕ × ℕ × MicroItem) : Bool :=
  decide (b.1 < a.1) || (decide (a.1 = b.1) && decide (a.2.1 ≤ b.2.1))

def kbKeywordSorted (idx : List MicroItem) (q : Str) : List (ℕ × ℕ × MicroItem) :=
  insSort entryLe (kbScoredEntries idx q)

/-- The dedup-and-truncate loop: c counts the entries already kept; the
break fires after appending once the kept count reaches k. -/
def kbDedupLoop (k : ℕ) (seen : List (Str × Str × Str)) (c : ℕ) :
    List (ℕ × ℕ × MicroItem) → List (ℕ × ℕ × MicroItem)
  | [] => []
  | e :: rest =>
    if entryKey e ∈ seen then kbDedupLoop k seen c rest
    else if k ≤ c + 1 then [e]
    else e :: kbDedupLoop k (entryKey e :: seen) (c + 1) rest

/-- kb_candidates_keyword of main.py. -/
def kb_candidates_keyword (idx : List MicroItem) (q : Str) (k : ℕ) : List MicroItem :=
  if q = [] ∨ idx = [] then []
  else (kbDedupLoop k [] 0 (kbKeywordSorted idx q)).map (fun e => e.2.2)

/-! ## Semantic retrieval (kb_candidates_semantic) and the hybrid kb_candidates -/

/-- The query augmentation of the semantic path, appending a visible
synonym hint block before embedding. -/
def expand_query_for_semantic (q : Str) : Str :=
  let t := normalize q
  let add : List Str :=
    (if isSubstr (("мид").toList) t || isSubstr (("mid").toList) t then
      [("мид-сенчури").toList, ("mid-century").toList, ("mid century").toList,
       ("midcentury").toList, ("мидсенчури").toList]
     else []) ++
    (if isSubstr (("эко").toList) t || isSubstr (("eco").toList) t then
      [("эко-стиль").toList, ("eco style").toList, ("экостиль").toList]
     else []) ++
    (if isSubstr (("средизем").toList) t || isSubstr (("mediterr").toList) t then
      [("средиземноморский").toList, ("mediterranean").toList]
     else []) ++
    (if isSubstr (("мемфис").toList) t || isSubstr (("memphis").toList) t then
      [("мемфис").toList, ("memphis").toList]
     else []) ++
    (if isSubstr (("ванн").toList) t || isSubstr (("bath").toList) t then
      [("санузел").toList, ("санузлы").toList, ("туалет").toList, ("bathroom").toList, ("wc").toList]
     else []) ++
    (if isSubstr (("сануз").toList) t || isSubstr (("туалет").toList) t || isSubstr (("wc").toList) t then
      [("ванная").toList, ("ванна").toList, ("bathroom").toList]
     else []) ++
    (if isSubstr (("фотошоп").toList) t || isSubstr (("photoshop").toList) t || isSubstr (("ps").toList) t then
      [("adobe photoshop").toList, ("фш").toList, ("psd").toList]
     else []) ++
    (if isSubstr (("3д").toList) t || isSubstr (("3d").toList) t then
      [("3d").toList, ("3д").toList, ("3д коллаж").toList, ("3d collage").toList,
       ("коллаж").toList, ("moodboard").toList, ("мудборд").toList]
     else [])
  if add ≠ [] then
    pyStrip (q ++ ("\n\nСинонимы/переводы: ").toList ++ List.intercalate ((", ").toList) add)
  else q

/-- The cosine function of main.py over exact rationals; the square root of
the float code is an explicit parameter since no claim depends on its
values. -/
def cosine (sqrtQ : ℚ → ℚ) (a b : List ℚ) : ℚ :=
  if a = [] ∨ b = [] ∨ a.length ≠ b.length then -1
  else
    let dot := (a.zip b).foldl (fun s p => s + p.1 * p.2) 0
    let na := a.foldl (fun s x => s + x * x) 0
    let nb := b.foldl (fun s x => s + x * x) 0
    if na ≤ 0 ∨ nb ≤ 0 then -1 else dot / (sqrtQ na * sqrtQ nb)

/-- Stable descending order by similarity, made total by the position tag. -/
def simLe (a b : ℚ × ℕ) : Bool :=
  decide (b.1 < a.1) || (decide (a.1 = b.1) && decide (a.2 ≤ b.2))

/-- The dedup-and-truncate loop of the semantic path; entries carry the
item index into the parsed index list. -/
def semDedupLoop (idx : List MicroItem) (k : ℕ) (seen : List (Str × Str × Str)) (c : ℕ) :
    List (ℚ × ℕ) → List MicroItem
  | [] => []
  | e :: rest =>
    match idx[e.2]? with
    | none => []
    | some it =>
      if itemKey it ∈ seen then semDedupLoop idx k seen c rest
      else if k ≤ c + 1 then [it]
      else it :: semDedupLoop idx k (itemKey it :: seen) (c + 1) rest

/-- kb_candidates_semantic of main.py.  The external embedding call is the
parameter embed (returning none on failure), the float square root is
sqrtQ, vecs is the loaded vector table KB_EMB_VECS. -/
def kb_candidates_semantic (sqrtQ : ℚ → ℚ) (embed : Str → Option (List ℚ))
    (idx : List MicroItem) (vecs : List (List ℚ)) (q : Str) (k : ℕ) : List MicroItem :=
  if q = [] ∨ idx = [] ∨ vecs = [] then []
  else
    match embed (expand_query_for_semantic q) with
    | none => []
    | some qvec =>
      if qvec = [] then []
      else
        let n := min idx.length vecs.length
        if n = 0 then []
        else
          let scored := (vecs.take n).enum.filterMap (fun p =>
            let sim := cosine sqrtQ qvec p.2
            if -1/2 < sim then some (sim, p.1) else none)
          let sorted := insSort simLe scored
          semDedupLoop idx k [] 0 (sorted.take (max (k * 4) 40))

/-- kb_candidates of main.py: semantic first, lexical fallback when the
semantic pass returns no candidates. -/
def kb_candidates (sqrtQ : ℚ → ℚ) (embed : Str → Option (List ℚ))
    (idx : List MicroItem) (vecs : List (List ℚ)) (q : Str) (k : ℕ) : List MicroItem :=
  let sem := kb_candidates_semantic sqrtQ embed idx vecs q k
  if sem ≠ [] then sem else kb_candidates_keyword idx q k

/-! ## Relevance selector (kb_select_with_llm) -/

/-- One element of the pick array in the judge response: an integer, or a
JSON value of any other shape. -/
inductive JudgePick where
  | pint (n : ℤ)
  | pother
deriving DecidableEq

/-- The judge raw response as seen by the try block: malformed when
json.loads (or any subsequent access) raises, otherwise the list bound to
the key pick. -/
inductive JudgeResponse where
  | malformed
  | parsed (picks : List JudgePick)
deriving DecidableEq

/-- Resolution of one pick: integers inside the valid range of the at most
20 serialized candidates select the corresponding candidate, everything
else is discarded. -/
def pickItem (cands : List MicroItem) (p : JudgePick) : Option MicroItem :=
  match p with
  | .pint n => if 1 ≤ n ∧ n ≤ ((cands.take 20).length : ℤ) then cands[n.toNat - 1]? else none
  | .pother => none

/-- kb_select_with_llm of main.py, with the judge call abstracted into its
response. -/
def kb_select_with_llm (resp : JudgeResponse) (cands : List MicroItem) : List MicroItem :=
  if cands = [] then []
  else
    match resp with
    | .malformed => cands.take 1
    | .parsed picks =>
      if picks = [] then []
      else (picks.take 3).foldl (fun acc p => acc ++ (pickItem cands p).toList) []

/-! ## Presentation formatter -/

/-- The marker test of best_material_name on the normalized query. -/
def bmMarker (q : Str) : Bool :=
  isSubstr (("коллаж").toList) q || isSubstr (("3д").toList) q || isSubstr (("3d").toList) q

/-- best_material_name of main.py (the local variables q, hw, mat of the
source are inlined). -/
def best_material_name (it : MicroItem) (uq : Str) : Str :=
  if bmMarker (normalize uq) ∧ pyStrip it.homework ≠ [] then
    if (pyStrip it.homework).length ≤ 240 then pyStrip it.homework
    else pyRstrip ((pyStrip it.homework).take 240) ++ ['…']
  else if pyStrip it.material_title = [] then ("(материал)").toList
  else pyStrip it.material_title

/-- Lesson identity used by the formatter dedup: stripped lesson_url,
falling back to the stripped lesson_title. -/
def lessonKey (it : MicroItem) : Str :=
  if pyStrip it.lesson_url ≠ [] then pyStrip it.lesson_url else pyStrip it.lesson_title

/-- The loop of dedupe_hits_by_lesson. -/
def dhGo (seen : List Str) : List MicroItem → List MicroItem
  | [] => []
  | it :: rest =>
    if lessonKey it = [] then dhGo seen rest
    else if lessonKey it ∈ seen then dhGo seen rest
    else it :: dhGo (lessonKey it :: seen) rest

/-- dedupe_hits_by_lesson of main.py. -/
def dedupe_hits_by_lesson (hits : List MicroItem) : List MicroItem := dhGo [] hits

/-- The lines emitted for a single lesson inside format_kb_hits. -/
def hitBlock (it : MicroItem) (uq : Str) : List Str :=
  [("\n📌 <b>Материал:</b> Видеоурок").toList, ("\n<b>Где лежит в программе:</b>").toList] ++
  (if it.step_title ≠ [] then [("— <b>Ступень:</b> ").toList ++ it.step_title] else []) ++
  (if it.module_title ≠ [] then [("— <b>Модуль:</b> ").toList ++ it.module_title] else []) ++
  (if it.lesson_title ≠ [] then [("— <b>Урок:</b> ").toList ++ it.lesson_title] else []) ++
  (if it.section_title ≠ [] then [("— <b>Раздел:</b> ").toList ++ it.section_title] else []) ++
  [("\n<b>Название материала:</b> ").toList ++ best_material_name it uq] ++
  (if it.lesson_url ≠ [] then [("\n<b>Ссылка:</b>\n").toList ++ it.lesson_url] else []) ++
  (if pyStrip it.homework ≠ [] then
    [("\n<b>Домашнее задание:</b>").toList, pyStrip it.homework]
   else [])

/-- The per-lesson blocks of format_kb_hits: deduplicated hits, capped at
three lessons. -/
def kbHitBlocks (hits : List MicroItem) (uq : Str) : List (List Str) :=
  ((dedupe_hits_by_lesson hits).take 3).map (fun it => hitBlock it uq)

/-- format_kb_hits of main.py. -/
def format_kb_hits (hits : List MicroItem) (uq : Str) : Str :=
  if hits = [] then []
  else
    pyStrip (List.intercalate ['\n']
      ((("\n\n📚 <b>Нашла в обучении:</b>").toList) :: (kbHitBlocks hits uq).flatMap id))

/-! ## Module listing (format_module_lessons) -/

/-- Decimal digits of a natural number. -/
def natStr (n : ℕ) : Str := (toString n).toList

/-- Does the pattern digits-then-optional-space-then-модул match at this
position. -/
def numModuleHere (target : Str) (l : Str) : Bool :=
  target.isPrefixOf l &&
    (("модул").toList.isPrefixOf ((l.drop target.length).dropWhile isSpace))

/-- Search for the pattern at any position preceded by whitespace. -/
def moduleSearchAux (target : Str) : Str → Bool
  | [] => false
  | c :: rest => (isSpace c && numModuleHere target rest) || moduleSearchAux target rest

/-- The re.search of the module filter in format_module_lessons, applied to
the stripped, lowered, ё-folded module title. -/
def moduleMatches (mnum : ℕ) (mt : Str) : Bool :=
  let l := (lowerStr (pyStrip mt)).map (fun c => if c = 'ё' then 'е' else c)
  let target := natStr mnum
  numModuleHere target l || moduleSearchAux target l

/-- First position of the lowered title where a digit run followed by
optional whitespace and the literal урок matches; returns the numeral. -/
def findNumUrok : Str → Option ℕ
  | [] => none
  | c :: rest =>
    if c.isDigit then
      let ds := c :: rest.takeWhile Char.isDigit
      let after := rest.dropWhile Char.isDigit
      if ("урок").toList.isPrefixOf (after.dropWhile isSpace) then
        some (ds.foldl (fun a d => a * 10 + (d.toNat - 48)) 0)
      else findNumUrok rest
    else findNumUrok rest

/-- lesson_sort_key of format_module_lessons. -/
def lesson_sort_key (title : Str) : ℕ × Str :=
  match findNumUrok (lowerStr title) with
  | some n => (n, title)
  | none => (10 ^ 9, title)

/-- Comparison of the Python key tuples (int, str). -/
def lkLe (a b : Str × Str) : Bool :=
  decide ((lesson_sort_key a.1).1 < (lesson_sort_key b.1).1) ||
  (decide ((lesson_sort_key a.1).1 = (lesson_sort_key b.1).1) && strLeB a.1 b.1)

/-- The insertion-ordered lessons dict of format_module_lessons: title to
url, first occurrence inserts, first non-empty url wins. -/
def lessonsAccum (acc : List (Str × Str)) : List MicroItem → List (Str × Str)
  | [] => acc
  | it :: rest =>
    let lt := pyStrip it.lesson_title
    let url := pyStrip it.lesson_url
    if lt = [] then lessonsAccum acc rest
    else
      match acc.find? (fun p => p.1 == lt) with
      | none => lessonsAccum (acc ++ [(lt, url)]) rest
      | some p =>
        if p.2 = [] ∧ url ≠ [] then
          lessonsAccum (acc.map (fun r => if r.1 == lt then (r.1, url) else r)) rest
        else lessonsAccum acc rest

/-- The ordered lesson listing serialized by format_module_lessons. -/
def moduleOrderedLessons (idx : List MicroItem) (mnum : ℕ) : List (Str × Str) :=
  insSort lkLe (lessonsAccum [] (idx.filter (fun it => moduleMatches mnum it.module_title)))

/-- format_module_lessons of main.py. -/
def format_module_lessons (idx : List MicroItem) (mnum : ℕ) : Str :=
  if idx = [] then ("База знаний пока не загружена 🙏").toList
  else if idx.filter (fun it => moduleMatches mnum it.module_title) = [] then
    ("Не нашла модуль ").toList ++ natStr mnum ++
      (" в базе 🙏 Если скажешь точное название модуля — найду точнее.").toList
  else if lessonsAccum [] (idx.filter (fun it => moduleMatches mnum it.module_title)) = [] then
    ("В модуле ").toList ++ natStr mnum ++
      (" нашлись записи, но без названий уроков. Проверь формат knowledge.txt 🙏").toList
  else
    let ordered := moduleOrderedLessons idx mnum
    pyStrip (List.intercalate ['\n']
      (((("📚 <b>Модуль ").toList ++ natStr mnum ++ (": уроки</b>\n").toList) ::
        ordered.map (fun p =>
          if p.2 ≠ [] then ("— <b>").toList ++ p.1 ++ ("</b>\n").toList ++ p.2
          else ("— <b>").toList ++ p.1 ++ ("</b>\n(ссылка не указана в базе)").toList)) ++
       [("\nЕсли хочешь — уточни тему (например: «3D коллаж ванной»), и я дам точный урок и раздел.").toList]))

/-! ## Corpus parser (load_kb) -/

/-- Word characters of the regex word boundary (ASCII alphanumerics,
underscore, Cyrillic letters). -/
def isWordChar (c : Char) : Bool :=
  c.isAlphanum || c == '_' || decide ('а' ≤ c ∧ c ≤ 'я') || decide ('А' ≤ c ∧ c ≤ 'Я') ||
  c == 'ё' || c == 'Ё'

/-- COURSE_RE: optional whitespace, СТРУКТУРА, whitespace, КУРСА prefix,
case-insensitively. -/
def isCourseHdr (l : Str) : Bool :=
  let r0 := (lowerStr l).dropWhile isSpace
  ("структура").toList.isPrefixOf r0 &&
    (let r1 := r0.drop 9
     (match r1.head? with | some c => isSpace c | none => false) &&
     ("курса").toList.isPrefixOf (r1.dropWhile isSpace))

/-- Shared shape of STEP_RE, MODULE_RE, LESSON_RE: optional whitespace, a
digit run, optional whitespace, then a literal. -/
def numThenLit (lit : Str) (l : Str) : Bool :=
  let r0 := (lowerStr l).dropWhile isSpace
  (match r0.head? with | some c => c.isDigit | none => false) &&
    lit.isPrefixOf ((r0.dropWhile Char.isDigit).dropWhile isSpace)

def isStepHdr (l : Str) : Bool := numThenLit (("ступен").toList) l

def isModuleHdr (l : Str) : Bool := numThenLit (("модул").toList) l

/-- LESSON_RE additionally requires a word boundary after урок. -/
def isLessonHdr (l : Str) : Bool :=
  numThenLit (("урок").toList) l &&
    (let r2 := (((lowerStr l).dropWhile isSpace).dropWhile Char.isDigit).dropWhile isSpace
     match (r2.drop 4).head? with
     | some c => !(isWordChar c)
     | none => true)

def isAnyHdr (l : Str) : Bool :=
  isCourseHdr l || isStepHdr l || isModuleHdr l || isLessonHdr l

/-- Does https?://S+ match at the start of this suffix; returns the
greedily captured group. -/
def urlHere (l : Str) : Option Str :=
  let ll := lowerStr l
  let plen := if ("https://").toList.isPrefixOf ll then 8
              else if ("http://").toList.isPrefixOf ll then 7 else 0
  if plen = 0 then none
  else match (l.drop plen).head? with
       | some c => if isSpace c then none else some (l.takeWhile (fun ch => !(isSpace ch)))
       | none => none

/-- Leftmost match of URL_LINE_RE. -/
def urlSearch : Str → Option Str
  | [] => none
  | c :: rest =>
    match urlHere (c :: rest) with
    | some u => some u
    | none => urlSearch rest

/-- URL_LINE_RE search plus the rstrip of closing punctuation applied at
every use site. -/
def extractUrl (l : Str) : Option Str :=
  (urlSearch l).map (pyRstripChars [')', '.', ',', ';'])

/-- The tail of LESSON_URL_LINE_RE after either alternative: optional
whitespace, a colon, optional whitespace, then the url at that position. -/
def lessonUrlTail (t : Str) : Option Str :=
  match t.dropWhile isSpace with
  | c :: t2 => if c = ':' then urlHere (t2.dropWhile isSpace) else none
  | [] => none

/-- Matches whitespace, на, whitespace, урок, returning the rest. -/
def naUrokAfter (t : Str) : Option Str :=
  match t.head? with
  | some c =>
    if isSpace c then
      let t1 := t.dropWhile isSpace
      if ("на").toList.isPrefixOf (lowerStr t1) then
        let t2 := t1.drop 2
        match t2.head? with
        | some d =>
          if isSpace d then
            let t3 := t2.dropWhile isSpace
            if ("урок").toList.isPrefixOf (lowerStr t3) then some (t3.drop 4) else none
          else none
        | none => none
      else none
    else none
  | none => none

/-- LESSON_URL_LINE_RE at one position: the alternative Ссылка на урок is
tried first, falling back to the bare Ссылка (ordered alternation with
backtracking). -/
def lessonUrlAt (l : Str) : Option Str :=
  if ("ссылка").toList.isPrefixOf (lowerStr l) then
    match naUrokAfter (l.drop 6) with
    | some rest =>
      match lessonUrlTail rest with
      | some u => some u
      | none => lessonUrlTail (l.drop 6)
    | none => lessonUrlTail (l.drop 6)
  else none

/-- Leftmost match of LESSON_URL_LINE_RE. -/
def lessonUrlSearch : Str → Option Str
  | [] => none
  | c :: rest =>
    match lessonUrlAt (c :: rest) with
    | some u => some u
    | none => lessonUrlSearch rest

/-- DZ_RE: optional whitespace, ДЗ, an optional parenthesized tag, a colon,
then the homework text (which the caller strips).  Returns the stripped
homework; none when the line does not match (in particular when nothing at
all follows the colon). -/
def dzAt (l : Str) : Option Str :=
  let r0 := l.dropWhile isSpace
  if ("дз").toList.isPrefixOf (lowerStr r0) then
    let t := r0.drop 2
    let afterParen :=
      (let t1 := t.dropWhile isSpace
       match t1.head? with
       | some c =>
         if c = '(' then
           let t2 := t1.drop 1
           let inside := t2.takeWhile (fun ch => ch ≠ ')')
           match t2.dropWhile (fun ch => ch ≠ ')') with
           | _ :: t4 => if inside ≠ [] then t4 else t
           | [] => t
         else t
       | none => t)
    match afterParen.dropWhile isSpace with
    | c :: t6 => if c = ':' ∧ t6 ≠ [] then some (pyStrip t6) else none
    | [] => none
  else none

def quoteOpen (c : Char) : Bool := c == '«' || c == '"' || c == Char.ofNat 39

def quoteClose (c : Char) : Bool := c == '»' || c == '"' || c == Char.ofNat 39

/-- Characters excluded from the section-title group of SECTION_FULL_RE. -/
def sectionBad (c : Char) : Bool := c == '»' || c == '"' || c == Char.ofNat 39 || c == ':'

/-- The part of SECTION_FULL_RE after the optional opening quote: a
non-empty title group, an optional closing quote, optional whitespace, a
colon, and a non-empty remainder.  The greedy title group is sufficient:
a shorter group can only shed trailing spaces, which the subsequent
whitespace matcher re-consumes, reaching the same colon, and the caller
strips the group, so the backtracked variants never change the result. -/
def sectionBody (t : Str) : Option (Str × Str) :=
  let g1 := t.takeWhile (fun c => !(sectionBad c))
  if g1 = [] then none
  else
    let t3 := t.drop g1.length
    let t4 := match t3.head? with
              | some c => if quoteClose c then t3.drop 1 else t3
              | none => t3
    match t4.dropWhile isSpace with
    | c :: t6 => if c = ':' ∧ t6 ≠ [] then some (g1, t6) else none
    | [] => none

/-- The optional opening quote of SECTION_FULL_RE: the variant consuming
the quote is preferred, falling back to leaving it (reachable because the
guillemet is a legal title character). -/
def sectionTry (t : Str) : Option (Str × Str) :=
  match t.head? with
  | some c =>
    if quoteOpen c then
      match sectionBody (t.drop 1) with
      | some r => some r
      | none => sectionBody t
    else sectionBody t
  | none => none

/-- The greedy whitespace run after Раздел, with backtracking: longest
consumption is tried first (spaces are legal title characters, so shorter
consumptions can succeed where the longest fails). -/
def sectionWs : Str → Option (Str × Str)
  | [] => none
  | c :: rest =>
    if isSpace c then
      match sectionWs rest with
      | some r => some r
      | none => sectionTry (c :: rest)
    else sectionTry (c :: rest)

/-- SECTION_FULL_RE, anchored at the start of the stripped line; yields the
raw title group and the remainder after the colon (the materials group up
to leading whitespace, which every caller strips away). -/
def sectionMatch (s : Str) : Option (Str × Str) :=
  if ("раздел").toList.isPrefixOf (lowerStr s) then sectionWs (s.drop 6) else none

/-- Python str.split on commas. -/
def splitComma : Str → List Str
  | [] => [[]]
  | c :: rest =>
    if c = ',' then [] :: splitComma rest
    else match splitComma rest with
         | h :: t => (c :: h) :: t
         | [] => [[c]]

/-- split_materials of main.py. -/
def split_materials (s : Str) : List Str :=
  (((splitComma s).map pyStrip).filter (fun p => p ≠ [])).map (pyStripChars [' ', '.', ';'])

/-- The mutable parse context: current course, step and module title and
url. -/
structure ParseCtx where
  course_title : Str
  course_url : Str
  step_title : Str
  step_url : Str
  module_title : Str
  module_url : Str

def initCtx : ParseCtx := ⟨[], [], [], [], [], []⟩

/-- The lesson sub-scan classification loop: a lesson-url line overwrites
the url, a homework line overwrites the homework, every other non-blank
stripped line is accumulated as a section line. -/
def lessonScanGo (url : Str) (secs : List Str) (hw : Str) : List Str → Str × List Str × Str
  | [] => (url, secs, hw)
  | l :: rest =>
    let cur := pyStrip l
    if cur = [] then lessonScanGo url secs hw rest
    else
      match lessonUrlSearch cur with
      | some u => lessonScanGo (pyRstripChars [')', '.', ',', ';'] u) secs hw rest
      | none =>
        match dzAt cur with
        | some h => lessonScanGo url secs h rest
        | none => lessonScanGo url (secs ++ [cur]) hw rest

/-- The structured sections parsed out of the accumulated section lines. -/
def sectionItemsOf (secs : List Str) : List (Str × List Str) :=
  secs.filterMap (fun s =>
    match sectionMatch (pyStrip s) with
    | some g =>
      let mraw := pyStrip g.2
      some (pyStrip g.1, if mraw = [] then [] else split_materials mraw)
    | none => none)

/-- The placeholder material sentinel. -/
def placeholderMat : Str := ("(материал не указан)").toList

/-- The structured sections with the placeholder fallback. -/
def sitemsOf (secs : List Str) : List (Str × List Str) :=
  if sectionItemsOf secs = [] then [(([] : Str), [placeholderMat])] else sectionItemsOf secs

/-- The material list of one section with the placeholder fallback. -/
def matsOf (si : Str × List Str) : List Str :=
  if si.2 = [] then [placeholderMat] else si.2

/-- One emitted MicroItem. -/
def mkItem (ctx : ParseCtx) (lt url hw blob st mat : Str) : MicroItem :=
  { course_title := ctx.course_title, course_url := ctx.course_url,
    step_title := ctx.step_title, step_url := ctx.step_url,
    module_title := ctx.module_title, module_url := ctx.module_url,
    lesson_title := lt, lesson_url := url,
    section_title := st, material_title := mat,
    homework := hw, lesson_blob := blob,
    text := normalize (List.intercalate [' ']
      [ctx.course_title, ctx.step_title, ctx.module_title, lt, st, mat, blob, hw]) }

/-- The MicroItems emitted for one lesson: one per (section, material)
pair, with placeholder section and material when nothing parsed. -/
def mkItems (ctx : ParseCtx) (lt : Str) (body : List Str) : List MicroItem :=
  (sitemsOf (lessonScanGo [] [] [] body).2.1).flatMap (fun si =>
    (matsOf si).map (fun mat =>
      mkItem ctx lt (lessonScanGo [] [] [] body).1 (lessonScanGo [] [] [] body).2.2
        (pyStrip (List.intercalate ['\n'] (lessonScanGo [] [] [] body).2.1)) si.1 mat))

/-- The peek past blank lines for a header url line: consumed (together
with the blanks before it) only when it contains a url. -/
def peekUrl (lines : List Str) : Option (Str × List Str) :=
  match lines.dropWhile (fun l => pyStrip l = []) with
  | [] => none
  | l :: t =>
    match extractUrl (pyStrip l) with
    | some u => some (u, t)
    | none => none

def takeLessonBody (lines : List Str) : List Str :=
  lines.takeWhile (fun l => !(isAnyHdr (pyStrip l)))

def dropLessonBody (lines : List Str) : List Str :=
  lines.dropWhile (fun l => !(isAnyHdr (pyStrip l)))

theorem peekUrl_length_lt (lines : List Str) (u : Str) (t : List Str)
    (h : peekUrl lines = some (u, t)) : t.length < lines.length := by
  unfold peekUrl at h
  cases hd : lines.dropWhile (fun l => pyStrip l = []) with
  | nil => rw [hd] at h; exact absurd h (by simp)
  | cons x xs =>
    rw [hd] at h
    dsimp only at h
    cases he : extractUrl (pyStrip x) with
    | none => rw [he] at h; exact absurd h (by simp)
    | some u2 =>
      rw [he] at h
      have hsub := (List.dropWhile_sublist (l := lines) (fun l => pyStrip l = [])).length_le
      rw [hd] at hsub
      simp only [Option.some.injEq, Prod.mk.injEq] at h
      obtain ⟨-, h2⟩ := h
      subst h2
      simp only [List.length_cons] at hsub
      omega

/-- The main scan loop of load_kb, with the context threaded explicitly. -/
def parseKB (ctx : ParseCtx) : List Str → List MicroItem
  | [] => []
  | l :: rest =>
    let ln := pyStrip l
    if ln = [] then parseKB ctx rest
    else if isCourseHdr ln then
      match hcu : peekUrl rest with
      | some p => parseKB { ctx with course_title := ln, course_url := p.1 } p.2
      | none => parseKB { ctx with course_title := ln, course_url := [] } rest
    else if isStepHdr ln then
      match hcu : peekUrl rest with
      | some p => parseKB { ctx with step_title := ln, step_url := p.1, module_title := [], module_url := [] } p.2
      | none => parseKB { ctx with step_title := ln, step_url := [], module_title := [], module_url := [] } rest
    else if isModuleHdr ln then
      match hcu : peekUrl rest with
      | some p => parseKB { ctx with module_title := ln, module_url := p.1 } p.2
      | none => parseKB { ctx with module_title := ln, module_url := [] } rest
    else if isLessonHdr ln then
      mkItems ctx ln (takeLessonBody rest) ++ parseKB ctx (dropLessonBody rest)
    else parseKB ctx rest
termination_by l => l.length
decreasing_by
  all_goals simp only [List.length_cons, dropLessonBody]
  all_goals first
    | omega
    | exact Nat.lt_succ_of_lt (peekUrl_length_lt _ _ _ (by simpa using hcu))
    | exact Nat.lt_succ_of_le (List.dropWhile_sublist _).length_le

/-- load_kb of main.py: none models a missing corpus file, the lines are
right-stripped at load time. -/
def load_kb (doc : Option (List Str)) : List MicroItem × ℕ × Str :=
  match doc with
  | none => ([], 0, ("KB not found: knowledge/knowledge.txt").toList)
  | some rawLines =>
    if rawLines.map pyRstrip = [] then ([], 0, ("KB empty").toList)
    else (parseKB initCtx (rawLines.map pyRstrip),
          (parseKB initCtx (rawLines.map pyRstrip)).length, ("OK").toList)

/-! ## Lemmas about the stable insertion sort -/

theorem insertLe_perm (le : α → α → Bool) (x : α) (l : List α) :
    (insertLe le x l).Perm (x :: l) := by
  induction l with
  | nil => exact List.Perm.refl _
  | cons y ys ih =>
    by_cases h : le x y = true
    · simp [insertLe, h]
    · simp only [insertLe, h, if_false]
      exact (ih.cons y).trans (List.Perm.swap x y ys)

theorem insSort_perm (le : α → α → Bool) (l : List α) : (insSort le l).Perm l := by
  induction l with
  | nil => exact List.Perm.nil
  | cons x xs ih => exact (insertLe_perm le x (insSort le xs)).trans (ih.cons x)

theorem mem_insSort (le : α → α → Bool) {a : α} {l : List α} :
    a ∈ insSort le l ↔ a ∈ l := (insSort_perm le l).mem_iff

theorem mem_insertLe (le : α → α → Bool) {x a : α} {l : List α}
    (h : a ∈ insertLe le x l) : a = x ∨ a ∈ l := by
  have := (insertLe_perm le x l).mem_iff.1 h
  simpa using this

theorem insertLe_pairwise (le : α → α → Bool)
    (htrans : ∀ a b c, le a b = true → le b c = true → le a c = true)
    (htot : ∀ a b, le a b = true ∨ le b a = true)
    (x : α) (l : List α) (hl : l.Pairwise (fun a b => le a b = true)) :
    (insertLe le x l).Pairwise (fun a b => le a b = true) := by
  induction l with
  | nil => simp [insertLe]
  | cons y ys ih =>
    rcases List.pairwise_cons.1 hl with ⟨hy, hys⟩
    by_cases h : le x y = true
    · simp only [insertLe, h, if_true]
      refine List.pairwise_cons.2 ⟨?_, hl⟩
      intro z hz
      rcases List.mem_cons.1 hz with rfl | hz
      · exact h
      · exact htrans x y z h (hy z hz)
    · simp only [insertLe, h, if_false]
      refine List.pairwise_cons.2 ⟨?_, ih hys⟩
      intro z hz
      rcases mem_insertLe le hz with rfl | hz
      · rcases htot z y with h2 | h2
        · exact absurd h2 h
        · exact h2
      · exact hy z hz

theorem insSort_pairwise (le : α → α → Bool)
    (htrans : ∀ a b c, le a b = true → le b c = true → le a c = true)
    (htot : ∀ a b, le a b = true ∨ le b a = true)
    (l : List α) : (insSort le l).Pairwise (fun a b => le a b = true) := by
  induction l with
  | nil => simp [insSort]
  | cons x xs ih => exact insertLe_pairwise le htrans htot x _ ih

/-! ## The scoring loop computes the per-term sum formula -/

theorem kwStep_eq (txt mt lb hw : Str) (s : ℕ) (w : Str) :
    kwStep txt mt lb hw s w = s + termWeight txt mt lb hw w := by
  unfold kwStep termWeight
  by_cases h1 : isSubstr w txt = true <;> by_cases h2 : isSubstr w mt = true <;>
    by_cases h3 : isSubstr w lb = true <;> by_cases h4 : isSubstr w hw = true <;>
    simp [h1, h2, h3, h4]

theorem foldl_kwStep (txt mt lb hw : Str) (l : List Str) :
    ∀ a : ℕ, l.foldl (kwStep txt mt lb hw) a = a + (l.map (termWeight txt mt lb hw)).sum := by
  induction l with
  | nil => intro a; simp
  | cons w ws ih =>
    intro a
    simp only [List.foldl_cons, List.map_cons, List.sum_cons, ih, kwStep_eq]
    omega

theorem kwScore_eq_spec (terms : List Str) (nb : Bool) (it : MicroItem) :
    kwScore terms nb it = kwScoreSpec terms nb it := by
  unfold kwScore kwScoreSpec
  rw [foldl_kwStep]
  by_cases h : (nb && bathTerms.any fun bt => isSubstr bt it.text) = true <;> simp [h]

/-! ## Lemmas about the dedup-and-truncate loop -/

theorem kbDedupLoop_sublist (k : ℕ) :
    ∀ (l : List (ℕ × ℕ × MicroItem)) (seen : List (Str × Str × Str)) (c : ℕ),
      (kbDedupLoop k seen c l).Sublist l := by
  intro l
  induction l with
  | nil => intro seen c; simp [kbDedupLoop]
  | cons e rest ih =>
    intro seen c
    by_cases h1 : entryKey e ∈ seen
    · simp only [kbDedupLoop, if_pos h1]
      exact (ih seen c).cons e
    · by_cases h2 : k ≤ c + 1
      · simp only [kbDedupLoop, if_neg h1, if_pos h2]
        exact (List.nil_sublist rest).cons₂ e
      · simp only [kbDedupLoop, if_neg h1, if_neg h2]
        exact (ih _ _).cons₂ e

theorem kbDedupLoop_length (k : ℕ) :
    ∀ (l : List (ℕ × ℕ × MicroItem)) (seen : List (Str × Str × Str)) (c : ℕ), c < k →
      (kbDedupLoop k seen c l).length ≤ k - c := by
  intro l
  induction l with
  | nil => intro seen c h; simp [kbDedupLoop]
  | cons e rest ih =>
    intro seen c h
    by_cases h1 : entryKey e ∈ seen
    · simp only [kbDedupLoop, if_pos h1]
      exact ih seen c h
    · by_cases h2 : k ≤ c + 1
      · simp only [kbDedupLoop, if_neg h1, if_pos h2, List.length_cons]
        simp only [List.length_nil]
        omega
      · simp only [kbDedupLoop, if_neg h1, if_neg h2, List.length_cons]
        have := ih (entryKey e :: seen) (c + 1) (by omega)
        omega

theorem kbDedupLoop_not_seen (k : ℕ) :
    ∀ (l : List (ℕ × ℕ × MicroItem)) (seen : List (Str × Str × Str)) (c : ℕ),
      ∀ e ∈ kbDedupLoop k seen c l, entryKey e ∉ seen := by
  intro l
  induction l with
  | nil => intro seen c e he; simp [kbDedupLoop] at he
  | cons x rest ih =>
    intro seen c e he
    by_cases h1 : entryKey x ∈ seen
    · rw [kbDedupLoop, if_pos h1] at he
      exact ih seen c e he
    · by_cases h2 : k ≤ c + 1
      · rw [kbDedupLoop, if_neg h1, if_pos h2] at he
        rcases List.mem_singleton.1 he with rfl
        exact h1
      · rw [kbDedupLoop, if_neg h1, if_neg h2] at he
        rcases List.mem_cons.1 he with rfl | he
        · exact h1
        · intro hc
          exact ih _ _ e he (List.mem_cons.2 (Or.inr hc))

theorem kbDedupLoop_keys_pairwise (k : ℕ) :
    ∀ (l : List (ℕ × ℕ × MicroItem)) (seen : List (Str × Str × Str)) (c : ℕ),
      (kbDedupLoop k seen c l).Pairwise (fun a b => entryKey a ≠ entryKey b) := by
  intro l
  induction l with
  | nil => intro seen c; simp [kbDedupLoop]
  | cons x rest ih =>
    intro seen c
    by_cases h1 : entryKey x ∈ seen
    · rw [kbDedupLoop, if_pos h1]
      exact ih seen c
    · by_cases h2 : k ≤ c + 1
      · rw [kbDedupLoop, if_neg h1, if_pos h2]
        simp
      · rw [kbDedupLoop, if_neg h1, if_neg h2]
        refine List.pairwise_cons.2 ⟨?_, ih _ _⟩
        intro e he hc
        exact kbDedupLoop_not_seen k rest _ _ e he (List.mem_cons.2 (Or.inl hc.symm))

/-- The strict version of the sort order: strictly higher score, or equal
score and strictly earlier document position. -/
def entryLt (a b : ℕ × ℕ × MicroItem) : Prop :=
  b.1 < a.1 ∨ (a.1 = b.1 ∧ a.2.1 < b.2.1)

theorem kbDedupLoop_first_wins (k : ℕ) :
    ∀ (l : List (ℕ × ℕ × MicroItem)) (seen : List (Str × Str × Str)) (c : ℕ),
      l.Pairwise entryLt →
      ∀ e ∈ kbDedupLoop k seen c l, ∀ e2 ∈ l, entryKey e2 = entryKey e →
        e = e2 ∨ entryLt e e2 := by
  intro l
  induction l with
  | nil => intro seen c _ e he; simp [kbDedupLoop] at he
  | cons x rest ih =>
    intro seen c hpw e he e2 he2 hkey
    rcases List.pairwise_cons.1 hpw with ⟨hx, hrest⟩
    by_cases h1 : entryKey x ∈ seen
    · rw [kbDedupLoop, if_pos h1] at he
      rcases List.mem_cons.1 he2 with rfl | he2
      · exact absurd (hkey ▸ h1) (kbDedupLoop_not_seen k rest seen c e he)
      · exact ih seen c hrest e he e2 he2 hkey
    · by_cases h2 : k ≤ c + 1
      · rw [kbDedupLoop, if_neg h1, if_pos h2] at he
        rcases List.mem_singleton.1 he with rfl
        rcases List.mem_cons.1 he2 with rfl | he2
        · exact Or.inl rfl
        · exact Or.inr (hx e2 he2)
      · rw [kbDedupLoop, if_neg h1, if_neg h2] at he
        rcases List.mem_cons.1 he with rfl | he
        · rcases List.mem_cons.1 he2 with rfl | he2
          · exact Or.inl rfl
          · exact Or.inr (hx e2 he2)
        · rcases List.mem_cons.1 he2 with rfl | he2
          · have := kbDedupLoop_not_seen k rest _ _ e he
            exact absurd (List.mem_cons.2 (Or.inl hkey.symm)) this
          · exact ih _ _ hrest e he e2 he2 hkey

/-! ## Characterization of the scored entries -/

theorem mem_kbScoredEntries {idx : List MicroItem} {q : Str} {e : ℕ × ℕ × MicroItem} :
    e ∈ kbScoredEntries idx q ↔
      ∃ p ∈ idx.enum, p.2.text ≠ [] ∧
        0 < kwScore (extractTerms (normalize q)) (needBath (normalize q)) p.2 ∧
        e = (kwScore (extractTerms (normalize q)) (needBath (normalize q)) p.2, p.1, p.2) := by
  unfold kbScoredEntries
  rw [List.mem_filterMap]
  constructor
  · rintro ⟨p, hp, hf⟩
    by_cases h1 : p.2.text = []
    · simp [h1] at hf
    · by_cases h2 : 0 < kwScore (extractTerms (normalize q)) (needBath (normalize q)) p.2
      · rw [if_neg h1, if_pos h2] at hf
        exact ⟨p, hp, h1, h2, (Option.some.injEq _ _ ▸ hf).symm⟩
      · simp [h1, h2] at hf
  · rintro ⟨p, hp, h1, h2, rfl⟩
    exact ⟨p, hp, by simp [h1, h2]⟩

/-- C1.  For every query and every MicroItem, the lexical score computed by
kb_candidates_keyword equals the sum over the extracted query terms of the
field weights 1.0, 1.5, 1.2, 2.6 plus the single 3.0 bathroom bonus, and
every item appearing in a returned candidate list has a strictly positive
such score (items with score at most zero appear in no returned list). -/
theorem c1_lexical_score :
    (∀ (terms : List Str) (nb : Bool) (it : MicroItem),
      kwScore terms nb it = kwScoreSpec terms nb it) ∧
    (∀ (idx : List MicroItem) (q : Str) (k : ℕ) (it : MicroItem),
      it ∈ kb_candidates_keyword idx q k →
      0 < kwScoreSpec (extractTerms (normalize q)) (needBath (normalize q)) it) := by
  constructor
  · exact kwScore_eq_spec
  · intro idx q k it hmem
    unfold kb_candidates_keyword at hmem
    by_cases hg : q = [] ∨ idx = []
    · simp [hg] at hmem
    · rw [if_neg hg] at hmem
      rcases List.mem_map.1 hmem with ⟨e, he, rfl⟩
      have he2 : e ∈ kbKeywordSorted idx q :=
        List.Sublist.mem he (kbDedupLoop_sublist k _ _ _)
      have he3 : e ∈ kbScoredEntries idx q := (mem_insSort entryLe).1 he2
      rcases mem_kbScoredEntries.1 he3 with ⟨p, _, _, h2, rfl⟩
      simpa [kwScore_eq_spec] using h2

def itW1 : MicroItem :=
  ⟨[], [], [], [], [], [], [], [], [], ("Свет").toList, [], [], ("свет и цвет").toList⟩

theorem c1_witness :
    0 < kwScoreSpec (extractTerms (normalize (("свет").toList)))
      (needBath (normalize (("свет").toList))) itW1 := by
  exact c1_lexical_score.2 [itW1] (("свет").toList) 20 itW1 (by decide)

/-- C2.  With an empty vector table the hybrid retriever output is exactly
the lexical output, and more generally whenever the semantic pass returns
no candidates (missing or empty table, failed embedding) the hybrid
retriever returns the lexical result. -/
theorem c2_semantic_fallback :
    (∀ (sqrtQ : ℚ → ℚ) (embed : Str → Option (List ℚ)) (idx : List MicroItem)
        (q : Str) (k : ℕ),
      kb_candidates sqrtQ embed idx [] q k = kb_candidates_keyword idx q k) ∧
    (∀ (sqrtQ : ℚ → ℚ) (embed : Str → Option (List ℚ)) (idx : List MicroItem)
        (vecs : List (List ℚ)) (q : Str) (k : ℕ),
      kb_candidates_semantic sqrtQ embed idx vecs q k = [] →
      kb_candidates sqrtQ embed idx vecs q k = kb_candidates_keyword idx q k) := by
  constructor
  · intro sqrtQ embed idx q k
    have hsem : kb_candidates_semantic sqrtQ embed idx [] q k = [] := by
      unfold kb_candidates_semantic
      simp
    unfold kb_candidates
    simp [hsem]
  · intro sqrtQ embed idx vecs q k h
    unfold kb_candidates
    simp [h]

def itW2 : MicroItem :=
  ⟨[], [], [], [], [], [], [], [], [], [], [], [], ("цвет").toList⟩

theorem c2_witness :
    kb_candidates (fun _ => 0) (fun _ => none) [itW2] [[1]] (("цвет").toList) 20 =
      kb_candidates_keyword [itW2] (("цвет").toList) 20 := by
  apply c2_semantic_fallback.2
  decide

/-! ## Selector -/

theorem foldl_toList_filterMap (f : JudgePick → Option MicroItem) :
    ∀ (l : List JudgePick) (acc : List MicroItem),
      l.foldl (fun acc p => acc ++ (f p).toList) acc = acc ++ l.filterMap f := by
  intro l
  induction l with
  | nil => intro acc; simp
  | cons x xs ih =>
    intro acc
    simp only [List.foldl_cons, ih, List.filterMap_cons]
    cases hf : f x <;> simp [hf]

/-- C3.  For a non-empty candidate list: an unparseable judge response
yields exactly the single top candidate; an empty pick list yields the
empty list; and the picks are resolved by discarding every entry that is
not an integer in the valid range of the at most 20 serialized candidates
(only the first three picks are considered at all). -/
theorem c3_selector_degradation (cands : List MicroItem) (h : cands ≠ []) :
    (kb_select_with_llm .malformed cands = cands.take 1 ∧
      (kb_select_with_llm .malformed cands).length = 1) ∧
    kb_select_with_llm (.parsed []) cands = [] ∧
    (∀ picks, kb_select_with_llm (.parsed picks) cands =
      (picks.take 3).filterMap (pickItem cands)) := by
  refine ⟨⟨?_, ?_⟩, ?_, ?_⟩
  · unfold kb_select_with_llm
    rw [if_neg h]
  · unfold kb_select_with_llm
    rw [if_neg h]
    cases cands with
    | nil => exact absurd rfl h
    | cons a t => simp
  · unfold kb_select_with_llm
    rw [if_neg h]
    simp
  · intro picks
    unfold kb_select_with_llm
    rw [if_neg h]
    by_cases hp : picks = []
    · subst hp; simp
    · simp only [hp, if_false]
      rw [foldl_toList_filterMap]
      simp

def itW3 : MicroItem :=
  ⟨[], [], [], [], [], [], ("1 урок").toList, [], [], [], [], [], []⟩

theorem c3_witness : kb_select_with_llm .malformed [itW3] = [itW3] := by
  have h := (c3_selector_degradation [itW3] (by simp)).1.1
  simpa using h

/-- C9.  When the normalized query contains a collage or 3d marker and the
stripped homework is non-empty, best_material_name returns the homework,
truncated to 240 characters (with trailing whitespace removed) plus an
ellipsis when longer than 240; otherwise it returns the stripped material
title, or the placeholder when that is empty. -/
theorem c9_best_material_name (it : MicroItem) (uq : Str) :
    (bmMarker (normalize uq) = true → pyStrip it.homework ≠ [] →
      best_material_name it uq =
        (if (pyStrip it.homework).length ≤ 240 then pyStrip it.homework
         else pyRstrip ((pyStrip it.homework).take 240) ++ ['…'])) ∧
    (¬(bmMarker (normalize uq) = true ∧ pyStrip it.homework ≠ []) →
      best_material_name it uq =
        (if pyStrip it.material_title = [] then ("(материал)").toList
         else pyStrip it.material_title)) := by
  constructor
  · intro h1 h2
    unfold best_material_name
    rw [if_pos ⟨h1, h2⟩]
  · intro h
    unfold best_material_name
    rw [if_neg h]

def itW9 : MicroItem :=
  ⟨[], [], [], [], [], [], [], [], [], ("референсы").toList, List.replicate 250 'д', [], []⟩

set_option maxRecDepth 40000 in
theorem c9_witness :
    best_material_name itW9 (("где 3d коллаж").toList) = List.replicate 240 'д' ++ ['…'] := by
  have h := (c9_best_material_name itW9 (("где 3d коллаж").toList)).1 (by decide) (by decide)
  rw [h]
  decide

/-! ## Formatter dedup lemmas -/

theorem dhGo_key_ne :
    ∀ (hits : List MicroItem) (seen : List Str),
      ∀ x ∈ dhGo seen hits, lessonKey x ≠ [] ∧ lessonKey x ∉ seen := by
  intro hits
  induction hits with
  | nil => intro seen x hx; simp [dhGo] at hx
  | cons it rest ih =>
    intro seen x hx
    by_cases h1 : lessonKey it = []
    · rw [dhGo, if_pos h1] at hx
      exact ih seen x hx
    · by_cases h2 : lessonKey it ∈ seen
      · rw [dhGo, if_neg h1, if_pos h2] at hx
        exact ih seen x hx
      · rw [dhGo, if_neg h1, if_neg h2] at hx
        rcases List.mem_cons.1 hx with rfl | hx
        · exact ⟨h1, h2⟩
        · rcases ih _ x hx with ⟨ha, hb⟩
          exact ⟨ha, fun hc => hb (List.mem_cons.2 (Or.inr hc))⟩

theorem dhGo_pairwise :
    ∀ (hits : List MicroItem) (seen : List Str),
      (dhGo seen hits).Pairwise (fun a b => lessonKey a ≠ lessonKey b) := by
  intro hits
  induction hits with
  | nil => intro seen; simp [dhGo]
  | cons it rest ih =>
    intro seen
    by_cases h1 : lessonKey it = []
    · rw [dhGo, if_pos h1]; exact ih seen
    · by_cases h2 : lessonKey it ∈ seen
      · rw [dhGo, if_neg h1, if_pos h2]
        exact ih seen
      · rw [dhGo, if_neg h1, if_neg h2]
        refine List.pairwise_cons.2 ⟨?_, ih _⟩
        intro x hx hc
        exact (dhGo_key_ne rest _ x hx).2 (List.mem_cons.2 (Or.inl hc.symm))

theorem dhGo_first :
    ∀ (hits : List MicroItem) (seen : List Str),
      ∀ x ∈ dhGo seen hits, ∃ pre suf, hits = pre ++ x :: suf ∧
        ∀ y ∈ pre, lessonKey y ≠ lessonKey x := by
  intro hits
  induction hits with
  | nil => intro seen x hx; simp [dhGo] at hx
  | cons it rest ih =>
    intro seen x hx
    by_cases h1 : lessonKey it = []
    · rw [dhGo, if_pos h1] at hx
      rcases ih seen x hx with ⟨pre, suf, heq, hpre⟩
      refine ⟨it :: pre, suf, by rw [heq]; rfl, ?_⟩
      intro y hy
      rcases List.mem_cons.1 hy with rfl | hy
      · rw [h1]
        exact fun hc => (dhGo_key_ne rest seen x hx).1 hc.symm
      · exact hpre y hy
    · by_cases h2 : lessonKey it ∈ seen
      · rw [dhGo, if_neg h1, if_pos h2] at hx
        rcases ih seen x hx with ⟨pre, suf, heq, hpre⟩
        refine ⟨it :: pre, suf, by rw [heq]; rfl, ?_⟩
        intro y hy
        rcases List.mem_cons.1 hy with rfl | hy
        · exact fun hc => (dhGo_key_ne rest seen x hx).2 (hc ▸ h2)
        · exact hpre y hy
      · rw [dhGo, if_neg h1, if_neg h2] at hx
        rcases List.mem_cons.1 hx with rfl | hx
        · exact ⟨[], rest, rfl, by simp⟩
        · rcases ih _ x hx with ⟨pre, suf, heq, hpre⟩
          refine ⟨it :: pre, suf, by rw [heq]; rfl, ?_⟩
          intro y hy
          rcases List.mem_cons.1 hy with rfl | hy
          · exact fun hc =>
              (dhGo_key_ne rest _ x hx).2 (List.mem_cons.2 (Or.inl hc.symm))
          · exact hpre y hy

/-- C8.  The formatted output contains at most three lesson blocks, the
deduplicated hits carry pairwise distinct lesson identities, each kept hit
is the first occurrence of its identity, and two candidates sharing one
non-empty lesson identity produce exactly one lesson block. -/
theorem c8_formatter_dedup (hits : List MicroItem) (uq : Str) :
    (kbHitBlocks hits uq).length ≤ 3 ∧
    (dedupe_hits_by_lesson hits).Pairwise (fun a b => lessonKey a ≠ lessonKey b) ∧
    (∀ x ∈ dedupe_hits_by_lesson hits, ∃ pre suf, hits = pre ++ x :: suf ∧
      ∀ y ∈ pre, lessonKey y ≠ lessonKey x) ∧
    (∀ a b : MicroItem, lessonKey a = lessonKey b → lessonKey a ≠ [] →
      (kbHitBlocks [a, b] uq).length = 1) := by
  refine ⟨?_, dhGo_pairwise hits [], dhGo_first hits [], ?_⟩
  · unfold kbHitBlocks
    rw [List.length_map]
    have := List.length_take 3 (dedupe_hits_by_lesson hits)
    omega
  · intro a b hk hne
    have hb : dedupe_hits_by_lesson [a, b] = [a] := by
      unfold dedupe_hits_by_lesson
      rw [dhGo, if_neg hne, if_neg (List.not_mem_nil _)]
      rw [dhGo, if_neg (hk ▸ hne), if_pos (by rw [← hk]; exact List.mem_singleton.2 rfl)]
      rfl
    unfold kbHitBlocks
    rw [hb]
    rfl

def itC10 : MicroItem :=
  ⟨[], [], [], [], [], [], [], [], ("Секция").toList, ("референсы").toList, [], [],
    ("текст").toList⟩

/-- C10 counterexample: a candidate with empty lesson_url and lesson_title
is indeed dropped by the dedup, but the formatted output of that single
candidate is the header line, not the empty string the claim asserts. -/
theorem c10_counterexample :
    dedupe_hits_by_lesson [itC10] = [] ∧
    format_kb_hits [itC10] [] = ("📚 <b>Нашла в обучении:</b>").toList ∧
    format_kb_hits [itC10] [] ≠ [] := by
  refine ⟨by decide, by decide, by decide⟩

/-- C10 amended: a candidate whose lesson identity is empty never survives
dedupe_hits_by_lesson, and when it is the only selected candidate the
formatted output consists of the header with zero lesson blocks (it is not
the empty string). -/
theorem c10_empty_key_dropped (hits : List MicroItem) (uq : Str) (it : MicroItem)
    (h : lessonKey it = []) :
    it ∉ dedupe_hits_by_lesson hits ∧
    kbHitBlocks [it] uq = [] ∧
    format_kb_hits [it] uq = ("📚 <b>Нашла в обучении:</b>").toList := by
  have hb : kbHitBlocks [it] uq = [] := by
    unfold kbHitBlocks dedupe_hits_by_lesson
    rw [dhGo, if_pos h]
    rfl
  refine ⟨?_, hb, ?_⟩
  · intro hmem
    exact (dhGo_key_ne hits [] it hmem).1 h
  · unfold format_kb_hits
    rw [if_neg (by simp), hb]
    decide

/-! ## Ranking properties of the lexical scorer -/

theorem entryLe_iff (a b : ℕ × ℕ × MicroItem) :
    entryLe a b = true ↔ (b.1 < a.1 ∨ (a.1 = b.1 ∧ a.2.1 ≤ b.2.1)) := by
  simp [entryLe]

theorem entryLe_trans (a b c : ℕ × ℕ × MicroItem)
    (h1 : entryLe a b = true) (h2 : entryLe b c = true) : entryLe a c = true := by
  rw [entryLe_iff] at h1 h2 ⊢
  omega

theorem entryLe_total (a b : ℕ × ℕ × MicroItem) :
    entryLe a b = true ∨ entryLe b a = true := by
  rw [entryLe_iff, entryLe_iff]
  omega

theorem enumFrom_fst_lt (l : List α) :
    ∀ (n : ℕ) (p : ℕ × α), p ∈ l.enumFrom n → n ≤ p.1 := by
  induction l with
  | nil => intro n p hp; simp at hp
  | cons x xs ih =>
    intro n p hp
    rw [List.enumFrom_cons] at hp
    rcases List.mem_cons.1 hp with rfl | hp
    · exact le_refl n
    · exact le_trans (Nat.le_succ n) (ih (n + 1) p hp)

theorem enumFrom_fst_pairwise (l : List α) :
    ∀ n : ℕ, (l.enumFrom n).Pairwise (fun a b => a.1 < b.1) := by
  induction l with
  | nil => intro n; simp
  | cons x xs ih =>
    intro n
    rw [List.enumFrom_cons]
    refine List.pairwise_cons.2 ⟨?_, ih (n + 1)⟩
    intro p hp
    exact lt_of_lt_of_le (Nat.lt_succ_self n) (enumFrom_fst_lt xs (n + 1) p hp)

theorem kbScored_f_fields {q : Str} {p : ℕ × MicroItem} {e : ℕ × ℕ × MicroItem}
    (h : (if p.2.text = [] then none
          else if 0 < kwScore (extractTerms (normalize q)) (needBath (normalize q)) p.2 then
            some (kwScore (extractTerms (normalize q)) (needBath (normalize q)) p.2, p.1, p.2)
          else none) = some e) :
    e.2.1 = p.1 ∧ e.2.2 = p.2 := by
  by_cases h1 : p.2.text = []
  · simp [h1] at h
  · by_cases h2 : 0 < kwScore (extractTerms (normalize q)) (needBath (normalize q)) p.2
    · rw [if_neg h1, if_pos h2] at h
      rcases Option.some.injEq _ _ ▸ h with rfl
      exact ⟨rfl, rfl⟩
    · simp [h1, h2] at h

theorem kbScoredEntries_pos_pairwise (idx : List MicroItem) (q : Str) :
    (kbScoredEntries idx q).Pairwise (fun a b => a.2.1 < b.2.1) := by
  unfold kbScoredEntries
  refine List.pairwise_filterMap.2 ?_
  have hp := enumFrom_fst_pairwise idx 0
  have : idx.enum = idx.enumFrom 0 := rfl
  rw [← this] at hp
  refine hp.imp ?_
  intro a b hab e he e2 he2
  rw [Option.mem_def] at he he2
  rw [(kbScored_f_fields he).1, (kbScored_f_fields he2).1]
  exact hab

theorem kbKeywordSorted_pairwise (idx : List MicroItem) (q : Str) :
    (kbKeywordSorted idx q).Pairwise entryLt := by
  have h1 := insSort_pairwise entryLe entryLe_trans entryLe_total (kbScoredEntries idx q)
  have h2 : (List.map (fun e => e.2.1) (kbScoredEntries idx q)).Nodup :=
    List.pairwise_map.2 ((kbScoredEntries_pos_pairwise idx q).imp (fun h => Nat.ne_of_lt h))
  have h3 : (List.map (fun e => e.2.1) (kbKeywordSorted idx q)).Nodup :=
    ((insSort_perm entryLe (kbScoredEntries idx q)).map (fun e => e.2.1)).nodup_iff.2 h2
  have h4 : (kbKeywordSorted idx q).Pairwise (fun a b => a.2.1 ≠ b.2.1) :=
    List.pairwise_map.1 h3
  refine (h1.and h4).imp ?_
  rintro a b ⟨hle, hne⟩
  rw [entryLe_iff] at hle
  unfold entryLt
  omega

theorem kbKeywordSorted_getElem (idx : List MicroItem) (q : Str) :
    ∀ e ∈ kbKeywordSorted idx q, idx[e.2.1]? = some e.2.2 := by
  intro e he
  have he2 : e ∈ kbScoredEntries idx q := (mem_insSort entryLe).1 he
  rcases mem_kbScoredEntries.1 he2 with ⟨p, hp, _, _, rfl⟩
  have hp2 : (p.1, p.2) ∈ idx.enumFrom 0 := by
    have : idx.enum = idx.enumFrom 0 := rfl
    rw [← this]
    simpa using hp
  rcases List.mem_enumFrom hp2 with ⟨_, hlt, heq⟩
  have hlt2 : p.1 < idx.length := by simpa using hlt
  rw [List.getElem?_eq_getElem hlt2]
  simp only [Nat.sub_zero] at heq
  rw [← heq]

def itC4 : MicroItem :=
  ⟨[], [], [], [], [], [], [], [], [], ("Свет").toList, [], [], ("свет и цвет").toList⟩

/-- C4 counterexample: with k = 0 the truncation check runs only after an
item has been appended, so one candidate is returned and the claimed bound
length at most k fails. -/
theorem c4_counterexample :
    (kb_candidates_keyword [itC4] (("свет").toList) 0).length = 1 := by decide

/-- C4 amended.  For every k at least 1 the candidate list of
kb_candidates_keyword has length at most k; the scored entries are sorted
strictly by descending score with ties broken by ascending original
document position; each entry tag indeed points at its item in the index;
the returned entries have pairwise distinct dedup keys; each kept entry is
the highest-ranked entry with its key; and the returned items are the
deduplicated prefix of the sorted order.  At k = 0 the code returns one
item (see the counterexample), which is the only amendment. -/
theorem c4_ranking (idx : List MicroItem) (q : Str) (k : ℕ) (hk : 1 ≤ k) :
    (kb_candidates_keyword idx q k).length ≤ k ∧
    (kbKeywordSorted idx q).Pairwise entryLt ∧
    (∀ e ∈ kbKeywordSorted idx q, idx[e.2.1]? = some e.2.2) ∧
    (kbDedupLoop k [] 0 (kbKeywordSorted idx q)).Pairwise
      (fun a b => entryKey a ≠ entryKey b) ∧
    (∀ e ∈ kbDedupLoop k [] 0 (kbKeywordSorted idx q),
      ∀ e2 ∈ kbKeywordSorted idx q, entryKey e2 = entryKey e → e = e2 ∨ entryLt e e2) ∧
    (q ≠ [] → idx ≠ [] →
      kb_candidates_keyword idx q k =
        (kbDedupLoop k [] 0 (kbKeywordSorted idx q)).map (fun e => e.2.2)) := by
  refine ⟨?_, kbKeywordSorted_pairwise idx q, kbKeywordSorted_getElem idx q,
    kbDedupLoop_keys_pairwise k _ _ _, ?_, ?_⟩
  · unfold kb_candidates_keyword
    by_cases hg : q = [] ∨ idx = []
    · rw [if_pos hg]
      simp
    · rw [if_neg hg, List.length_map]
      have := kbDedupLoop_length k (kbKeywordSorted idx q) [] 0 (by omega)
      omega
  · exact kbDedupLoop_first_wins k _ [] 0 (kbKeywordSorted_pairwise idx q)
  · intro h1 h2
    unfold kb_candidates_keyword
    rw [if_neg (by simp [h1, h2])]

theorem c4_witness :
    (kb_candidates_keyword [itC4] (("свет").toList) 20).length ≤ 20 :=
  (c4_ranking [itC4] (("свет").toList) 20 (by omega)).1

/-! ## Code-point string order lemmas -/

theorem strLtB_trans : ∀ (a b c : Str),
    strLtB a b = true → strLtB b c = true → strLtB a c = true := by
  intro a
  induction a with
  | nil =>
    intro b c hab hbc
    cases b with
    | nil => simp [strLtB] at hab
    | cons y ys =>
      cases c with
      | nil => simp [strLtB] at hbc
      | cons z zs => simp [strLtB]
  | cons x xs ih =>
    intro b c hab hbc
    cases b with
    | nil => simp [strLtB] at hab
    | cons y ys =>
      cases c with
      | nil => simp [strLtB] at hbc
      | cons z zs =>
        simp only [strLtB, Bool.or_eq_true, Bool.and_eq_true, decide_eq_true_eq,
          beq_iff_eq] at hab hbc ⊢
        rcases hab with h1 | ⟨rfl, h1⟩
        · rcases hbc with h2 | ⟨rfl, h2⟩
          · exact Or.inl (lt_trans h1 h2)
          · exact Or.inl h1
        · rcases hbc with h2 | ⟨rfl, h2⟩
          · exact Or.inl h2
          · exact Or.inr ⟨rfl, ih ys zs h1 h2⟩

theorem strLtB_trichotomy : ∀ (a b : Str),
    strLtB a b = true ∨ a = b ∨ strLtB b a = true := by
  intro a
  induction a with
  | nil =>
    intro b
    cases b with
    | nil => exact Or.inr (Or.inl rfl)
    | cons y ys => exact Or.inl (by simp [strLtB])
  | cons x xs ih =>
    intro b
    cases b with
    | nil => exact Or.inr (Or.inr (by simp [strLtB]))
    | cons y ys =>
      rcases lt_trichotomy x y with h | rfl | h
      · exact Or.inl (by simp [strLtB, h])
      · rcases ih ys with h2 | rfl | h2
        · exact Or.inl (by simp [strLtB, h2])
        · exact Or.inr (Or.inl rfl)
        · exact Or.inr (Or.inr (by simp [strLtB, h2]))
      · exact Or.inr (Or.inr (by simp [strLtB, h]))

theorem strLeB_trans (a b c : Str)
    (h1 : strLeB a b = true) (h2 : strLeB b c = true) : strLeB a c = true := by
  simp only [strLeB, Bool.or_eq_true, beq_iff_eq] at h1 h2 ⊢
  rcases h1 with h1 | rfl
  · rcases h2 with h2 | rfl
    · exact Or.inl (strLtB_trans a b c h1 h2)
    · exact Or.inl h1
  · exact h2

theorem strLeB_total (a b : Str) : strLeB a b = true ∨ strLeB b a = true := by
  simp only [strLeB, Bool.or_eq_true, beq_iff_eq]
  rcases strLtB_trichotomy a b with h | rfl | h
  · exact Or.inl (Or.inl h)
  · exact Or.inl (Or.inr rfl)
  · exact Or.inr (Or.inl h)

theorem lkLe_iff (a b : Str × Str) :
    lkLe a b = true ↔ ((lesson_sort_key a.1).1 < (lesson_sort_key b.1).1 ∨
      ((lesson_sort_key a.1).1 = (lesson_sort_key b.1).1 ∧ strLeB a.1 b.1 = true)) := by
  simp [lkLe]

theorem lkLe_trans (a b c : Str × Str)
    (h1 : lkLe a b = true) (h2 : lkLe b c = true) : lkLe a c = true := by
  rw [lkLe_iff] at h1 h2 ⊢
  rcases h1 with h1 | ⟨e1, s1⟩
  · rcases h2 with h2 | ⟨e2, s2⟩
    · exact Or.inl (lt_trans h1 h2)
    · exact Or.inl (e2 ▸ h1)
  · rcases h2 with h2 | ⟨e2, s2⟩
    · exact Or.inl (e1 ▸ h2)
    · exact Or.inr ⟨e1.trans e2, strLeB_trans _ _ _ s1 s2⟩

theorem lkLe_total (a b : Str × Str) : lkLe a b = true ∨ lkLe b a = true := by
  rw [lkLe_iff, lkLe_iff]
  rcases Nat.lt_trichotomy (lesson_sort_key a.1).1 (lesson_sort_key b.1).1 with h | h | h
  · exact Or.inl (Or.inl h)
  · rcases strLeB_total a.1 b.1 with h2 | h2
    · exact Or.inl (Or.inr ⟨h, h2⟩)
    · exact Or.inr (Or.inr ⟨h.symm, h2⟩)
  · exact Or.inr (Or.inl h)

/-- C5 amended.  The lesson listing is sorted by the Python key tuples:
ascending extracted lesson index (with the large sentinel for titles
without one, so they come after all indexed lessons), ties broken by
code-point lexicographic title comparison — not by original document
order, which the counterexample below refutes. -/
theorem c5_module_lesson_order (idx : List MicroItem) (mnum : ℕ) :
    (moduleOrderedLessons idx mnum).Pairwise (fun a b =>
      (lesson_sort_key a.1).1 < (lesson_sort_key b.1).1 ∨
      ((lesson_sort_key a.1).1 = (lesson_sort_key b.1).1 ∧ strLeB a.1 b.1 = true)) := by
  unfold moduleOrderedLessons
  exact (insSort_pairwise lkLe lkLe_trans lkLe_total _).imp (fun h => (lkLe_iff _ _).1 h)

def itC5a : MicroItem :=
  ⟨[], [], [], [], ("2 модуль").toList, [], ("Яркость").toList, [], [], [], [], [],
    ("т").toList⟩

def itC5b : MicroItem :=
  ⟨[], [], [], [], ("2 модуль").toList, [], ("База").toList, [], [], [], [], [],
    ("т").toList⟩

/-- C5 counterexample: two lessons of module 2 without an extractable
lesson index appear in document order Яркость then База, yet the listing
orders them База then Яркость (lexicographically by title), refuting the
claimed stability by original document order. -/
theorem c5_counterexample :
    findNumUrok (lowerStr (("Яркость").toList)) = none ∧
    findNumUrok (lowerStr (("База").toList)) = none ∧
    (moduleOrderedLessons [itC5a, itC5b] 2).map Prod.fst =
      [("База").toList, ("Яркость").toList] := by
  refine ⟨by decide, by decide, by decide⟩

/-! ## Strip algebra -/

theorem rstripIf_cons (p : Char → Bool) (c : Char) (t : Str) :
    rstripIf p (c :: t) =
      if (rstripIf p t).isEmpty && p c then [] else c :: rstripIf p t := rfl

theorem rstripIf_idem (p : Char → Bool) :
    ∀ l : Str, rstripIf p (rstripIf p l) = rstripIf p l := by
  intro l
  induction l with
  | nil => rfl
  | cons c t ih =>
    rw [rstripIf_cons]
    by_cases h : (rstripIf p t).isEmpty && p c
    · rw [if_pos h]
      rfl
    · rw [if_neg h, rstripIf_cons, ih, if_neg h]

theorem lstrip_rstrip_comm : ∀ l : Str, pyLstrip (pyRstrip l) = pyRstrip (pyLstrip l) := by
  intro l
  induction l with
  | nil => rfl
  | cons c t ih =>
    show pyLstrip (rstripIf isSpace (c :: t)) = rstripIf isSpace ((c :: t).dropWhile isSpace)
    rw [rstripIf_cons, List.dropWhile_cons]
    by_cases hc : isSpace c = true
    · rw [if_pos hc]
      by_cases hr : rstripIf isSpace t = []
      · rw [if_pos (by simp [hr, hc])]
        have h3 := ih
        unfold pyRstrip pyLstrip at h3
        rw [hr] at h3
        rw [← h3]
        rfl
      · rw [if_neg (by simp [hr, hc])]
        show (c :: rstripIf isSpace t).dropWhile isSpace = rstripIf isSpace (t.dropWhile isSpace)
        rw [List.dropWhile_cons, if_pos hc]
        exact ih
    · rw [if_neg hc, if_neg (by simp [hc])]
      show (c :: rstripIf isSpace t).dropWhile isSpace = rstripIf isSpace (c :: t)
      rw [List.dropWhile_cons, if_neg hc, rstripIf_cons, if_neg (by simp [hc])]

theorem pyStrip_pyRstrip (l : Str) : pyStrip (pyRstrip l) = pyStrip l := by
  unfold pyStrip
  rw [show pyLstrip (pyRstrip l) = pyRstrip (pyLstrip l) from lstrip_rstrip_comm l]
  unfold pyRstrip
  rw [rstripIf_idem]

/-! ## Emitted lesson items -/

theorem matsOf_ne_nil (si : Str × List Str) : matsOf si ≠ [] := by
  unfold matsOf
  by_cases h : si.2 = [] <;> simp [h]

theorem sitemsOf_ne_nil (secs : List Str) : sitemsOf secs ≠ [] := by
  unfold sitemsOf
  by_cases h : sectionItemsOf secs = [] <;> simp [h]

theorem mkItems_ne_nil (ctx : ParseCtx) (lt : Str) (body : List Str) :
    mkItems ctx lt body ≠ [] := by
  unfold mkItems
  intro h
  rcases List.exists_cons_of_ne_nil
    (sitemsOf_ne_nil ((lessonScanGo [] [] [] body).2.1)) with ⟨s, t, heq⟩
  rw [heq, List.flatMap_cons] at h
  rcases List.append_eq_nil.1 h with ⟨h1, -⟩
  exact matsOf_ne_nil s (List.map_eq_nil_iff.1 h1)

theorem mkItems_fields (ctx : ParseCtx) (lt : Str) (body : List Str) :
    ∀ it ∈ mkItems ctx lt body,
      it.module_title = ctx.module_title ∧ it.module_url = ctx.module_url ∧
      it.lesson_title = lt := by
  intro it hit
  unfold mkItems at hit
  rcases List.mem_flatMap.1 hit with ⟨si, hsi, hit2⟩
  rcases List.mem_map.1 hit2 with ⟨mat, hmat, rfl⟩
  exact ⟨rfl, rfl, rfl⟩

/-! ## Peek lemmas -/

theorem peekUrl_sublist (lines : List Str) (u : Str) (t : List Str)
    (h : peekUrl lines = some (u, t)) : t.Sublist lines := by
  unfold peekUrl at h
  cases hd : lines.dropWhile (fun l => pyStrip l = []) with
  | nil => rw [hd] at h; exact absurd h (by simp)
  | cons x xs =>
    rw [hd] at h
    dsimp only at h
    cases he : extractUrl (pyStrip x) with
    | none => rw [he] at h; exact absurd h (by simp)
    | some u2 =>
      rw [he] at h
      simp only [Option.some.injEq, Prod.mk.injEq] at h
      obtain ⟨-, rfl⟩ := h
      have hsub : (x :: xs).Sublist lines := by
        rw [← hd]
        exact List.dropWhile_sublist _
      exact ((List.Sublist.refl xs).cons x).trans hsub

theorem peekUrl_append (mid : List Str) (L : Str) (post : List Str)
    (hne : pyStrip L ≠ []) (hnu : extractUrl (pyStrip L) = none) :
    peekUrl (mid ++ L :: post) = none ∨
    ∃ u mid2, peekUrl (mid ++ L :: post) = some (u, mid2 ++ L :: post) ∧
      mid2.Sublist mid := by
  unfold peekUrl
  rw [List.dropWhile_append]
  by_cases hd : (mid.dropWhile (fun l => pyStrip l = [])).isEmpty = true
  · rw [if_pos hd, List.dropWhile_cons, if_neg (by simp [hne])]
    dsimp only
    rw [hnu]
    exact Or.inl rfl
  · rw [if_neg hd]
    cases hm : mid.dropWhile (fun l => pyStrip l = []) with
    | nil => rw [hm] at hd; simp at hd
    | cons x xs =>
      rw [List.cons_append]
      dsimp only
      cases he : extractUrl (pyStrip x) with
      | some u =>
        refine Or.inr ⟨u, xs, rfl, ?_⟩
        have hsub : (x :: xs).Sublist mid := by
          rw [← hm]
          exact List.dropWhile_sublist _
        exact ((List.Sublist.refl xs).cons x).trans hsub
      | none =>
        exact Or.inl rfl

theorem dropLessonBody_append (mid : List Str) (L : Str) (post : List Str)
    (hL : isAnyHdr (pyStrip L) = true) :
    ∃ mid2, dropLessonBody (mid ++ L :: post) = mid2 ++ L :: post ∧
      mid2.Sublist mid := by
  unfold dropLessonBody
  rw [List.dropWhile_append]
  by_cases hd : (mid.dropWhile (fun l => !(isAnyHdr (pyStrip l)))).isEmpty = true
  · rw [if_pos hd, List.dropWhile_cons, if_neg (by simp [hL])]
    exact ⟨[], rfl, List.nil_sublist mid⟩
  · rw [if_neg hd]
    exact ⟨mid.dropWhile _, rfl, List.dropWhile_sublist _⟩

/-! ## Header recognizer facts -/

theorem numThenLit_head {lit l : Str} (h : numThenLit lit l = true) :
    ∃ c cs, (lowerStr l).dropWhile isSpace = c :: cs ∧ c.isDigit = true := by
  unfold numThenLit at h
  cases hr : (lowerStr l).dropWhile isSpace with
  | nil => rw [hr] at h; simp at h
  | cons c cs =>
    rw [hr] at h
    simp only [List.head?_cons, Bool.and_eq_true] at h
    exact ⟨c, cs, rfl, h.1⟩

theorem numThenLit_prefix {lit l : Str} (h : numThenLit lit l = true) :
    lit.isPrefixOf
      ((((lowerStr l).dropWhile isSpace).dropWhile Char.isDigit).dropWhile isSpace) = true := by
  unfold numThenLit at h
  cases hr : (lowerStr l).dropWhile isSpace with
  | nil => simp [hr] at h
  | cons c cs =>
    rw [hr] at h
    simp only [List.head?_cons, Bool.and_eq_true] at h
    exact h.2

theorem isCourseHdr_head {l : Str} (h : isCourseHdr l = true) :
    ∃ cs, (lowerStr l).dropWhile isSpace = 'с' :: cs := by
  unfold isCourseHdr at h
  cases hr : (lowerStr l).dropWhile isSpace with
  | nil => rw [hr] at h; simp [List.isPrefixOf] at h
  | cons c cs =>
    rw [hr, Bool.and_eq_true] at h
    obtain ⟨h1, -⟩ := h
    rw [show ("структура").toList = 'с' :: ("труктура").toList from rfl] at h1
    simp only [List.isPrefixOf, Bool.and_eq_true, beq_iff_eq] at h1
    exact ⟨cs, by rw [← h1.1]⟩

theorem numThenLit_not_course {lit l : Str} (h : numThenLit lit l = true) :
    isCourseHdr l = false := by
  by_contra hc
  rw [Bool.not_eq_false] at hc
  rcases numThenLit_head h with ⟨c, cs, hr, hd⟩
  rcases isCourseHdr_head hc with ⟨cs2, hr2⟩
  rw [hr] at hr2
  obtain ⟨rfl, -⟩ : c = 'с' ∧ cs = cs2 := by simpa using hr2
  exact absurd hd (by decide)

theorem isLessonHdr_lit {l : Str} (h : isLessonHdr l = true) :
    numThenLit (("урок").toList) l = true := by
  unfold isLessonHdr at h
  rw [Bool.and_eq_true] at h
  exact h.1

theorem prefix_head_eq {c : Char} {cs lit1 lit2 : Str} {c1 c2 : Char}
    {t1 t2 : Str} (hl1 : lit1 = c1 :: t1) (hl2 : lit2 = c2 :: t2)
    (h1 : lit1.isPrefixOf (c :: cs) = true) (h2 : lit2.isPrefixOf (c :: cs) = true) :
    c1 = c2 := by
  rw [hl1] at h1
  rw [hl2] at h2
  simp only [List.isPrefixOf, Bool.and_eq_true, beq_iff_eq] at h1 h2
  exact h1.1.trans h2.1.symm

theorem isLessonHdr_not_step {l : Str} (h : isLessonHdr l = true) : isStepHdr l = false := by
  by_contra hc
  rw [Bool.not_eq_false] at hc
  have p1 := numThenLit_prefix (isLessonHdr_lit h)
  have p2 := numThenLit_prefix (show numThenLit (("ступен").toList) l = true from hc)
  cases hr2 : (((lowerStr l).dropWhile isSpace).dropWhile Char.isDigit).dropWhile isSpace with
  | nil =>
    rw [hr2] at p1
    simp [List.isPrefixOf] at p1
  | cons c cs =>
    rw [hr2] at p1 p2
    have := prefix_head_eq (show ("урок").toList = 'у' :: ("рок").toList from rfl)
      (show ("ступен").toList = 'с' :: ("тупен").toList from rfl) p1 p2
    exact absurd this (by decide)

theorem isLessonHdr_not_module {l : Str} (h : isLessonHdr l = true) :
    isModuleHdr l = false := by
  by_contra hc
  rw [Bool.not_eq_false] at hc
  have p1 := numThenLit_prefix (isLessonHdr_lit h)
  have p2 := numThenLit_prefix (show numThenLit (("модул").toList) l = true from hc)
  cases hr2 : (((lowerStr l).dropWhile isSpace).dropWhile Char.isDigit).dropWhile isSpace with
  | nil =>
    rw [hr2] at p1
    simp [List.isPrefixOf] at p1
  | cons c cs =>
    rw [hr2] at p1 p2
    have := prefix_head_eq (show ("урок").toList = 'у' :: ("рок").toList from rfl)
      (show ("модул").toList = 'м' :: ("одул").toList from rfl) p1 p2
    exact absurd this (by decide)

theorem isStepHdr_ne_nil {l : Str} (h : isStepHdr l = true) : l ≠ [] := by
  intro e
  rw [e] at h
  exact absurd h (by decide)

theorem isLessonHdr_ne_nil {l : Str} (h : isLessonHdr l = true) : l ≠ [] := by
  intro e
  rw [e] at h
  exact absurd h (by decide)

/-! ## Step equations for the parser -/

theorem parseKB_nil (ctx : ParseCtx) : parseKB ctx [] = [] := by
  rw [parseKB]

theorem parseKB_blank (ctx : ParseCtx) (l : Str) (rest : List Str)
    (h : pyStrip l = []) : parseKB ctx (l :: rest) = parseKB ctx rest := by
  rw [parseKB, if_pos h]

theorem parseKB_course (ctx : ParseCtx) (l : Str) (rest : List Str)
    (h1 : pyStrip l ≠ []) (h2 : isCourseHdr (pyStrip l) = true) :
    parseKB ctx (l :: rest) =
      (match peekUrl rest with
       | some p => parseKB { ctx with course_title := pyStrip l, course_url := p.1 } p.2
       | none => parseKB { ctx with course_title := pyStrip l, course_url := [] } rest) := by
  rw [parseKB, if_neg h1, if_pos h2]
  split
  next p hp => rw [hp]
  next hp => rw [hp]

theorem parseKB_step (ctx : ParseCtx) (l : Str) (rest : List Str)
    (h1 : pyStrip l ≠ []) (h2 : isCourseHdr (pyStrip l) = false)
    (h3 : isStepHdr (pyStrip l) = true) :
    parseKB ctx (l :: rest) =
      (match peekUrl rest with
       | some p => parseKB { ctx with step_title := pyStrip l, step_url := p.1, module_title := [], module_url := [] } p.2
       | none => parseKB { ctx with step_title := pyStrip l, step_url := [], module_title := [], module_url := [] } rest) := by
  rw [parseKB, if_neg h1, if_neg (by simp [h2]), if_pos h3]
  split
  next p hp => rw [hp]
  next hp => rw [hp]

theorem parseKB_module (ctx : ParseCtx) (l : Str) (rest : List Str)
    (h1 : pyStrip l ≠ []) (h2 : isCourseHdr (pyStrip l) = false)
    (h3 : isStepHdr (pyStrip l) = false) (h4 : isModuleHdr (pyStrip l) = true) :
    parseKB ctx (l :: rest) =
      (match peekUrl rest with
       | some p => parseKB { ctx with module_title := pyStrip l, module_url := p.1 } p.2
       | none => parseKB { ctx with module_title := pyStrip l, module_url := [] } rest) := by
  rw [parseKB, if_neg h1, if_neg (by simp [h2]), if_neg (by simp [h3]), if_pos h4]
  split
  next p hp => rw [hp]
  next hp => rw [hp]

theorem parseKB_lesson (ctx : ParseCtx) (l : Str) (rest : List Str)
    (h1 : pyStrip l ≠ []) (h2 : isCourseHdr (pyStrip l) = false)
    (h3 : isStepHdr (pyStrip l) = false) (h4 : isModuleHdr (pyStrip l) = false)
    (h5 : isLessonHdr (pyStrip l) = true) :
    parseKB ctx (l :: rest) =
      mkItems ctx (pyStrip l) (takeLessonBody rest) ++ parseKB ctx (dropLessonBody rest) := by
  rw [parseKB, if_neg h1, if_neg (by simp [h2]), if_neg (by simp [h3]),
    if_neg (by simp [h4]), if_pos h5]

theorem parseKB_other (ctx : ParseCtx) (l : Str) (rest : List Str)
    (h1 : pyStrip l ≠ []) (h2 : isCourseHdr (pyStrip l) = false)
    (h3 : isStepHdr (pyStrip l) = false) (h4 : isModuleHdr (pyStrip l) = false)
    (h5 : isLessonHdr (pyStrip l) = false) :
    parseKB ctx (l :: rest) = parseKB ctx rest := by
  rw [parseKB, if_neg h1, if_neg (by simp [h2]), if_neg (by simp [h3]),
    if_neg (by simp [h4]), if_neg (by simp [h5])]

/-! ## The module-reset invariant of the parser -/

theorem parseKB_no_module :
    ∀ (n : ℕ) (lines : List Str) (ctx : ParseCtx),
      lines.length ≤ n →
      ctx.module_title = [] → ctx.module_url = [] →
      (∀ l ∈ lines, isModuleHdr (pyStrip l) = false) →
      ∀ it ∈ parseKB ctx lines, it.module_title = [] ∧ it.module_url = [] := by
  intro n
  induction n with
  | zero =>
    intro lines ctx hlen _ _ _ it hit
    have hnil : lines = [] := List.eq_nil_of_length_eq_zero (Nat.le_zero.1 hlen)
    subst hnil
    simp [parseKB] at hit
  | succ n ih =>
    intro lines ctx hlen hm1 hm2 hno it hit
    cases lines with
    | nil => simp [parseKB] at hit
    | cons l rest =>
      have hrest : ∀ x ∈ rest, isModuleHdr (pyStrip x) = false :=
        fun x hx => hno x (List.mem_cons.2 (Or.inr hx))
      have hlen2 : rest.length ≤ n := by
        simp only [List.length_cons] at hlen
        omega
      rw [parseKB] at hit
      by_cases hb : pyStrip l = []
      · rw [if_pos hb] at hit
        exact ih rest ctx hlen2 hm1 hm2 hrest it hit
      · rw [if_neg hb] at hit
        by_cases hco : isCourseHdr (pyStrip l) = true
        · rw [if_pos hco] at hit
          split at hit
          next p hp =>
            have hp2 : peekUrl rest = some (p.1, p.2) := by simpa using hp
            have hlt := peekUrl_length_lt rest p.1 p.2 hp2
            have hsub := peekUrl_sublist rest p.1 p.2 hp2
            refine ih p.2 _ (by omega) ?_ ?_
              (fun x hx => hrest x (List.Sublist.mem hx hsub)) it hit
            · exact hm1
            · exact hm2
          next hp =>
            refine ih rest _ hlen2 ?_ ?_ hrest it hit
            · exact hm1
            · exact hm2
        · rw [if_neg hco] at hit
          by_cases hst : isStepHdr (pyStrip l) = true
          · rw [if_pos hst] at hit
            split at hit
            next p hp =>
              have hp2 : peekUrl rest = some (p.1, p.2) := by simpa using hp
              have hlt := peekUrl_length_lt rest p.1 p.2 hp2
              have hsub := peekUrl_sublist rest p.1 p.2 hp2
              refine ih p.2 _ (by omega) ?_ ?_
                (fun x hx => hrest x (List.Sublist.mem hx hsub)) it hit
              · rfl
              · rfl
            next hp =>
              refine ih rest _ hlen2 ?_ ?_ hrest it hit
              · rfl
              · rfl
          · rw [if_neg hst] at hit
            by_cases hmo : isModuleHdr (pyStrip l) = true
            · exact absurd hmo (by simp [hno l (List.mem_cons.2 (Or.inl rfl))])
            · rw [if_neg hmo] at hit
              by_cases hle : isLessonHdr (pyStrip l) = true
              · rw [if_pos hle] at hit
                rcases List.mem_append.1 hit with hit | hit
                · rcases mkItems_fields ctx (pyStrip l) _ it hit with ⟨e1, e2, -⟩
                  exact ⟨e1.trans hm1, e2.trans hm2⟩
                · have hsub : (dropLessonBody rest).Sublist rest :=
                    List.dropWhile_sublist _
                  exact ih (dropLessonBody rest) ctx
                    (le_trans hsub.length_le hlen2) hm1 hm2
                    (fun x hx => hrest x (List.Sublist.mem hx hsub)) it hit
              · rw [if_neg hle] at hit
                exact ih rest ctx hlen2 hm1 hm2 hrest it hit

/-! ## Reaching the lesson with an empty module context -/

theorem parseKB_reach_lesson :
    ∀ (n : ℕ) (mid : List Str) (ctx : ParseCtx) (lessonLn : Str) (post : List Str),
      mid.length ≤ n →
      ctx.module_title = [] → ctx.module_url = [] →
      (∀ l ∈ mid, isModuleHdr (pyStrip l) = false) →
      isLessonHdr (pyStrip lessonLn) = true →
      extractUrl (pyStrip lessonLn) = none →
      ∃ pre ctx2, parseKB ctx (mid ++ lessonLn :: post) =
          pre ++ parseKB ctx2 (lessonLn :: post) ∧
        ctx2.module_title = [] ∧ ctx2.module_url = [] := by
  intro n
  induction n with
  | zero =>
    intro mid ctx lessonLn post hlen hm1 hm2 _ _ _
    have hnil : mid = [] := List.eq_nil_of_length_eq_zero (Nat.le_zero.1 hlen)
    subst hnil
    exact ⟨[], ctx, rfl, hm1, hm2⟩
  | succ n ih =>
    intro mid ctx lessonLn post hlen hm1 hm2 hno hles hnu
    cases mid with
    | nil => exact ⟨[], ctx, rfl, hm1, hm2⟩
    | cons m mid2 =>
      have hrest : ∀ x ∈ mid2, isModuleHdr (pyStrip x) = false :=
        fun x hx => hno x (List.mem_cons.2 (Or.inr hx))
      have hlen2 : mid2.length ≤ n := by
        simp only [List.length_cons] at hlen
        omega
      have hLne : pyStrip lessonLn ≠ [] := isLessonHdr_ne_nil hles
      rw [List.cons_append]
      by_cases hb : pyStrip m = []
      · rw [parseKB_blank ctx m _ hb]
        exact ih mid2 ctx lessonLn post hlen2 hm1 hm2 hrest hles hnu
      · by_cases hco : isCourseHdr (pyStrip m) = true
        · rw [parseKB_course ctx m _ hb hco]
          rcases peekUrl_append mid2 lessonLn post hLne hnu with hp | ⟨u, mid3, hp, hsub⟩
          · rw [hp]
            rcases ih mid2 { ctx with course_title := pyStrip m, course_url := [] }
              lessonLn post hlen2 hm1 hm2 hrest hles hnu with ⟨pre, ctx2, heq, hc1, hc2⟩
            exact ⟨pre, ctx2, heq, hc1, hc2⟩
          · rw [hp]
            rcases ih mid3 { ctx with course_title := pyStrip m, course_url := u }
              lessonLn post (le_trans hsub.length_le hlen2) hm1 hm2
              (fun x hx => hrest x (List.Sublist.mem hx hsub)) hles hnu with
              ⟨pre, ctx2, heq, hc1, hc2⟩
            exact ⟨pre, ctx2, heq, hc1, hc2⟩
        · have hco2 : isCourseHdr (pyStrip m) = false := by simpa using hco
          by_cases hst : isStepHdr (pyStrip m) = true
          · rw [parseKB_step ctx m _ hb hco2 hst]
            rcases peekUrl_append mid2 lessonLn post hLne hnu with hp | ⟨u, mid3, hp, hsub⟩
            · rw [hp]
              exact ih mid2 _ lessonLn post hlen2 rfl rfl hrest hles hnu
            · rw [hp]
              exact ih mid3 _ lessonLn post (le_trans hsub.length_le hlen2) rfl rfl
                (fun x hx => hrest x (List.Sublist.mem hx hsub)) hles hnu
          · have hst2 : isStepHdr (pyStrip m) = false := by simpa using hst
            by_cases hmo : isModuleHdr (pyStrip m) = true
            · exact absurd hmo (by simp [hno m (List.mem_cons.2 (Or.inl rfl))])
            · have hmo2 : isModuleHdr (pyStrip m) = false := by simpa using hmo
              by_cases hle2 : isLessonHdr (pyStrip m) = true
              · rw [parseKB_lesson ctx m _ hb hco2 hst2 hmo2 hle2]
                rcases dropLessonBody_append mid2 lessonLn post
                  (by simp [isAnyHdr, hles]) with ⟨mid3, hdb, hsub⟩
                rw [hdb]
                rcases ih mid3 ctx lessonLn post (le_trans hsub.length_le hlen2)
                  hm1 hm2 (fun x hx => hrest x (List.Sublist.mem hx hsub)) hles hnu with
                  ⟨pre, ctx2, heq, hc1, hc2⟩
                exact ⟨mkItems ctx (pyStrip m) (takeLessonBody (mid2 ++ lessonLn :: post)) ++ pre,
                  ctx2, by rw [heq, List.append_assoc], hc1, hc2⟩
              · have hle3 : isLessonHdr (pyStrip m) = false := by simpa using hle2
                rw [parseKB_other ctx m _ hb hco2 hst2 hmo2 hle3]
                exact ih mid2 ctx lessonLn post hlen2 hm1 hm2 hrest hles hnu

/-- C6.  A Step header always resets the tracked Module context: for every
prior context, whenever a lesson header follows a step header with no
Module header in between (and the lesson line itself carries no url, so it
is not swallowed as the url line of a preceding header), the MicroItems
emitted for that lesson exist and carry empty module_title and module_url,
even when the context held a module from an earlier step. -/
theorem c6_step_resets_module (ctx : ParseCtx) (stepLn : Str) (mid : List Str)
    (lessonLn : Str) (post : List Str)
    (hstep : isStepHdr (pyStrip stepLn) = true)
    (hles : isLessonHdr (pyStrip lessonLn) = true)
    (hmid : ∀ l ∈ mid, isModuleHdr (pyStrip l) = false)
    (hnu : extractUrl (pyStrip lessonLn) = none) :
    ∃ pre suf items,
      parseKB ctx (stepLn :: (mid ++ lessonLn :: post)) = pre ++ items ++ suf ∧
      items ≠ [] ∧
      ∀ it ∈ items, it.lesson_title = pyStrip lessonLn ∧
        it.module_title = [] ∧ it.module_url = [] := by
  have hb : pyStrip stepLn ≠ [] := isStepHdr_ne_nil hstep
  have hco : isCourseHdr (pyStrip stepLn) = false := numThenLit_not_course hstep
  have hLne : pyStrip lessonLn ≠ [] := isLessonHdr_ne_nil hles
  have main : ∀ (mid' : List Str) (ctx1 : ParseCtx),
      ctx1.module_title = [] → ctx1.module_url = [] →
      (∀ l ∈ mid', isModuleHdr (pyStrip l) = false) →
      ∃ pre suf items, parseKB ctx1 (mid' ++ lessonLn :: post) = pre ++ items ++ suf ∧
        items ≠ [] ∧
        ∀ it ∈ items, it.lesson_title = pyStrip lessonLn ∧
          it.module_title = [] ∧ it.module_url = [] := by
    intro mid' ctx1 h1 h2 h3
    rcases parseKB_reach_lesson mid'.length mid' ctx1 lessonLn post (le_refl _)
      h1 h2 h3 hles hnu with ⟨pre, ctx2, heq, hc1, hc2⟩
    have hco2 : isCourseHdr (pyStrip lessonLn) = false :=
      numThenLit_not_course (isLessonHdr_lit hles)
    have hst2 : isStepHdr (pyStrip lessonLn) = false := isLessonHdr_not_step hles
    have hmo2 : isModuleHdr (pyStrip lessonLn) = false := isLessonHdr_not_module hles
    rw [parseKB_lesson ctx2 lessonLn post hLne hco2 hst2 hmo2 hles] at heq
    refine ⟨pre, parseKB ctx2 (dropLessonBody post),
      mkItems ctx2 (pyStrip lessonLn) (takeLessonBody post),
      by rw [heq, List.append_assoc], mkItems_ne_nil _ _ _, ?_⟩
    intro it hit
    rcases mkItems_fields ctx2 (pyStrip lessonLn) _ it hit with ⟨e1, e2, e3⟩
    exact ⟨e3, e1.trans hc1, e2.trans hc2⟩
  rw [parseKB_step ctx stepLn _ hb hco hstep]
  rcases peekUrl_append mid lessonLn post hLne hnu with hp | ⟨u, mid3, hp, hsub⟩
  · rw [hp]
    exact main mid _ rfl rfl hmid
  · rw [hp]
    exact main mid3 _ rfl rfl (fun x hx => hmid x (List.Sublist.mem hx hsub))

def ctxW6 : ParseCtx :=
  ⟨("курс").toList, [], ("1 ступень").toList, [], ("1 модуль").toList,
    ("http://m").toList⟩

theorem c6_witness :
    ∃ pre suf items,
      parseKB ctxW6 ((("2 ступень").toList) ::
        ([("просто текст").toList] ++ (("1 урок: Свет").toList) :: [])) =
          pre ++ items ++ suf ∧
      items ≠ [] ∧
      ∀ it ∈ items, it.lesson_title = pyStrip (("1 урок: Свет").toList) ∧
        it.module_title = [] ∧ it.module_url = [] :=
  c6_step_resets_module ctxW6 (("2 ступень").toList) [("просто текст").toList]
    (("1 урок: Свет").toList) [] (by decide) (by decide) (by decide) (by decide)

/-! ## C7: totality and the no-header case -/

theorem parseKB_no_headers :
    ∀ (n : ℕ) (lines : List Str) (ctx : ParseCtx),
      lines.length ≤ n →
      (∀ l ∈ lines, isAnyHdr (pyStrip l) = false) →
      parseKB ctx lines = [] := by
  intro n
  induction n with
  | zero =>
    intro lines ctx hlen _
    have hnil : lines = [] := List.eq_nil_of_length_eq_zero (Nat.le_zero.1 hlen)
    subst hnil
    exact parseKB_nil ctx
  | succ n ih =>
    intro lines ctx hlen hno
    cases lines with
    | nil => exact parseKB_nil ctx
    | cons l rest =>
      have hl := hno l (List.mem_cons.2 (Or.inl rfl))
      simp only [isAnyHdr, Bool.or_eq_false_iff] at hl
      have hrest : ∀ x ∈ rest, isAnyHdr (pyStrip x) = false :=
        fun x hx => hno x (List.mem_cons.2 (Or.inr hx))
      have hlen2 : rest.length ≤ n := by
        simp only [List.length_cons] at hlen
        omega
      by_cases hb : pyStrip l = []
      · rw [parseKB_blank ctx l rest hb]
        exact ih rest ctx hlen2 hrest
      · rw [parseKB_other ctx l rest hb hl.1.1.1 hl.1.1.2 hl.1.2 hl.2]
        exact ih rest ctx hlen2 hrest

/-- C7.  The parser is a total function (definable without any partiality
in this embedding), load_kb always returns the item count together with a
status string, and a document none of whose lines is a recognized header
yields an empty index rather than an error. -/
theorem c7_parser_totality :
    (∀ doc : Option (List Str), (load_kb doc).2.1 = (load_kb doc).1.length) ∧
    (∀ lines : List Str, (∀ l ∈ lines, isAnyHdr (pyStrip l) = false) →
      (load_kb (some lines)).1 = []) := by
  constructor
  · intro doc
    cases doc with
    | none => rfl
    | some raw =>
      unfold load_kb
      by_cases h : raw.map pyRstrip = [] <;> simp [h]
  · intro lines h
    unfold load_kb
    dsimp only
    by_cases hmap : lines.map pyRstrip = []
    · simp [hmap]
    · rw [if_neg hmap]
      have hno : ∀ l ∈ lines.map pyRstrip, isAnyHdr (pyStrip l) = false := by
        intro l hl
        rcases List.mem_map.1 hl with ⟨x, hx, rfl⟩
        rw [pyStrip_pyRstrip]
        exact h x hx
      exact parseKB_no_headers (lines.map pyRstrip).length _ initCtx (le_refl _) hno

theorem c7_witness :
    (load_kb (some [("привет мир").toList, [], ("не заголовок").toList])).1 = [] :=
  c7_parser_totality.2 _ (by decide)

def itW8a : MicroItem :=
  ⟨[], [], [], [], [], [], ("1 урок").toList, ("http://u").toList, ("А").toList,
    ("конспект").toList, [], [], ("т").toList⟩

def itW8b : MicroItem :=
  ⟨[], [], [], [], [], [], ("1 урок").toList, ("http://u").toList, ("Б").toList,
    ("чек-лист").toList, [], [], ("т").toList⟩

theorem c8_witness : (kbHitBlocks [itW8a, itW8b] []).length = 1 :=
  (c8_formatter_dedup [itW8a, itW8b] []).2.2.2 itW8a itW8b (by decide) (by decide)

theorem c10_witness :
    itC10 ∉ dedupe_hits_by_lesson [itC10] ∧ kbHitBlocks [itC10] [] = [] ∧
      format_kb_hits [itC10] [] = ("📚 <b>Нашла в обучении:</b>").toList :=
  c10_empty_key_dropped [itC10] [] itC10 (by decide)

end KB
